import Mathlib

/-!
Shallow embedding of the job lifecycle engine of the infield-fly repository
(`src/jobs.py` and the job-processing entry points of `src/infieldfly.py`),
together with proofs about the embedded operations.

Conventions of the embedding:
* Python `uuid.uuid1()` identifiers are modelled as natural numbers drawn from
  a monotone fresh-id supply (`QState.nextId`); uniqueness of generated uuids
  is an environmental assumption of the code and is reflected by the supply
  invariant `ReachState`.
* Optional dictionary entries (`dictionary.get(key, None)`) are `Option` fields.
* Calendar dates are the strings produced by `strftime("%Y-%m-%d")`.
* External collaborators (episode database, torrent search provider, Deluge
  daemon, file system contents) are oracle parameters, as the spec treats them
  as interface-boundary collaborators.
-/

namespace InfieldFly

/-- Enumeration `JobStatus` of `src/jobs.py` (lines 299-309). -/
inductive JobStatus where
  | waiting
  | searching
  | adding
  | downloading
  | pending
  | converting
  | completed
  | unknown
deriving DecidableEq, Repr

/-- The `value` string of each `JobStatus` member. -/
def JobStatus.value : JobStatus → String
  | .waiting => "waiting"
  | .searching => "searching"
  | .adding => "adding"
  | .downloading => "downloading"
  | .pending => "pending"
  | .converting => "converting"
  | .completed => "completed"
  | .unknown => "unknown"

/-- The set of recognized status strings, i.e. `item.value for item in JobStatus`. -/
def jobStatusValues : List String :=
  ["waiting", "searching", "adding", "downloading", "pending", "converting",
   "completed", "unknown"]

/-- Python `JobStatus(v)` for a string `v`: enum lookup by value, falling back to
`JobStatus._missing_` (`src/jobs.py` lines 311-315), which returns `UNKNOWN` for
any value that matches no member. -/
def JobStatus.ofValue (v : String) : JobStatus :=
  if v = "waiting" then .waiting
  else if v = "searching" then .searching
  else if v = "adding" then .adding
  else if v = "downloading" then .downloading
  else if v = "pending" then .pending
  else if v = "converting" then .converting
  else if v = "completed" then .completed
  else if v = "unknown" then .unknown
  else .unknown

/-- The `status` entry computed by `Job.__init__` (`src/jobs.py` lines 328-331):
an absent entry defaults to `WAITING`; a present entry goes through
`JobStatus(value)`, hence `_missing_`/`UNKNOWN` for unrecognized strings.
No branch raises: the computation is total. -/
def statusFromRecord : Option String → JobStatus
  | none => .waiting
  | some v => JobStatus.ofValue v

/-- A raw persisted job record: the JSON dictionary read from a job file, before
`Job.__init__` fills in defaults.  Every entry is optional. -/
structure JobRecord where
  id : Option Nat := none
  status : Option String := none
  keyword : Option String := none
  query : Option String := none
  added : Option String := none
  magnet_link : Option String := none
  title : Option String := none
  name : Option String := none
  torrent_hash : Option String := none
  download_directory : Option String := none
  converted_file_name : Option String := none
  download_only : Option Bool := none
deriving DecidableEq, Repr

/-- The in-memory job object (`class Job`, `src/jobs.py`): the dictionary after
`__init__` has filled the `id`, `status`, `added` and `download_only` defaults,
so those four entries are always present. -/
structure Job where
  job_id : Nat
  status : JobStatus
  added : String
  download_only : Bool := false
  keyword : Option String := none
  query : Option String := none
  magnet_link : Option String := none
  title : Option String := none
  name : Option String := none
  torrent_hash : Option String := none
  download_directory : Option String := none
  converted_file_name : Option String := none
deriving DecidableEq, Repr

/-- `Job.__init__(directory, job_dict)` (`src/jobs.py` lines 322-336): defaults
`id` to a fresh uuid, `status` to `WAITING` (or deserializes a present value
through `JobStatus`), `added` to today's date, and `download_only` to `False`. -/
def Job.init (freshId : Nat) (today : String) (r : JobRecord) : Job where
  job_id := r.id.getD freshId
  status := statusFromRecord r.status
  added := r.added.getD today
  download_only := r.download_only.getD false
  keyword := r.keyword
  query := r.query
  magnet_link := r.magnet_link
  title := r.title
  name := r.name
  torrent_hash := r.torrent_hash
  download_directory := r.download_directory
  converted_file_name := r.converted_file_name

/-- `Job.copy()` (`src/jobs.py` lines 512-520): a fresh job object receives every
dictionary entry of the source except `"id"`, which stays the fresh uuid.  The
defaults `Job.__init__` put into the fresh dictionary (`status`, `added`,
`download_only`) are all overwritten because the source dictionary always
carries those keys. -/
def Job.copyWithId (j : Job) (freshId : Nat) : Job :=
  { j with job_id := freshId }

/-! ## The job store

One file per job, named by the job's id, inside the configured job directory
(`JobQueue.load_jobs`, `Job.save`, `Job.delete`).  The directory is modelled as
a list of job objects; `Job.save` either rewrites the file of an existing id or
creates a new file, `Job.delete` removes every file with the job's id. -/

/-- The contents of the job store directory. -/
abbrev Store := List Job

/-- `Job.save` at the store level: rewrite the record that carries the same id,
or create a new record when none exists. -/
def saveJob (st : Store) (j : Job) : Store :=
  if st.any (fun x => x.job_id == j.job_id) then
    st.map (fun x => if x.job_id == j.job_id then j else x)
  else
    st ++ [j]

/-- `Job.delete` at the store level: remove the record file with the given id
(idempotent: removing an absent id is a no-op). -/
def deleteJob (st : Store) (i : Nat) : Store :=
  st.filter (fun x => x.job_id != i)

/-- `JobQueue.get_jobs_by_status` (`src/jobs.py` lines 49-53). -/
def byStatus (st : Store) (s : JobStatus) : Store :=
  st.filter (fun x => x.status == s)

/-- `JobQueue.get_job_by_id` (`src/jobs.py` lines 28-36). -/
def lookupJob (st : Store) (i : Nat) : Option Job :=
  st.find? (fun x => x.job_id == i)

/-- `JobQueue.is_existing_job` (`src/jobs.py` lines 268-278): scans every loaded
job, with no status filter, comparing the `keyword` and `query` entries. -/
def is_existing_job (st : Store) (keyword search_string : String) : Bool :=
  st.any (fun j => j.keyword == some keyword && j.query == some search_string)

/-- Queue state: the store plus the fresh-uuid supply. -/
structure QState where
  store : Store
  nextId : Nat
deriving DecidableEq, Repr

/-- Every id present in the store was drawn from the supply, and no two records
share an id.  Both hold for every store reachable from an empty directory,
because uuids are globally unique. -/
def ReachState (s : QState) : Prop :=
  (∀ j ∈ s.store, j.job_id < s.nextId) ∧ (s.store.map Job.job_id).Nodup

/-! ## Search stage -/

/-- A torrent search result (`TorrentResult` in `src/search.py`). -/
structure TorrentResult where
  title : String
  magnet_link : String
  hash : Option String := none
deriving DecidableEq, Repr

/-- One discovery candidate produced by the loops of
`JobQueue.create_new_search_jobs` (`src/jobs.py` lines 188-210): the tracked
series' main keyword, the assembled search string (stored search terms plus the
zero-padded `sNNeNN` tag), the stored search's download-only flag, and the
episode's substituted plex title. -/
structure Candidate where
  keyword : String
  search_string : String
  is_download_only : Bool
  plex_title_sub : String
deriving DecidableEq, Repr

/-- External collaborators of the search stage.  `search` is
`TorrentDataProvider.search` for a query string; `ucfn` is the candidate
converted file name computed by `Job.update_converted_file_name` from the
cached episode database for a (keyword, query, current name) triple, `none`
when the query has no `sNNeNN` match or the series/episode is unknown;
`candidates` is the discovery output of the episode database for the cycle's
airdate and the configured tracked series. -/
structure Env where
  today : String
  search : Option String → List TorrentResult
  ucfn : Option String → Option String → Option String → Option String
  candidates : List Candidate

/-- `Job.update_converted_file_name` (`src/jobs.py` lines 535-549): the only
entry it may write is `converted_file_name`, set to the candidate name computed
from the episode database when one exists. -/
def update_converted_file_name (env : Env) (j : Job) : Job :=
  match env.ucfn j.keyword j.query j.converted_file_name with
  | none => j
  | some c => { j with converted_file_name := some c }

/-- Python rendering of an optional string inside an f-string: `None` prints as
the four characters `None`. -/
def pyFStr : Option String → String
  | none => "None"
  | some s => s

/-- Python `str.lower()` (the status strings involved are ASCII). -/
def pyLower (s : String) : String :=
  (s.data.map Char.toLower).asString

/-- Decimal rendering of a natural number (the digits of the fan-out counter as
printed by the f-string `f"{search_result_counter}"`). -/
def natToDec (n : Nat) : String :=
  if n = 0 then "0" else (((Nat.digits 10 n).map Nat.digitChar).reverse).asString

/-- The decorated converted file name given to a fan-out clone
(`src/jobs.py` lines 98-99): `f"{added_job.converted_file_name}.{counter}"`. -/
def decorate (cfn : Option String) (counter : Nat) : String :=
  pyFStr cfn ++ "." ++ natToDec counter

/-- Application of one search result to a job (`src/jobs.py` lines 105-108):
status becomes `ADDING` and the result's magnet link, title and hash are
copied in. -/
def applyResult (r : TorrentResult) (j : Job) : Job :=
  { j with status := .adding, magnet_link := some r.magnet_link,
           title := some r.title, torrent_hash := r.hash }

/-- The clone built for the additional search result with counter `k`
(`src/jobs.py` lines 96-110): `job.copy()` of the already-mutated first job,
decorated converted file name, then the result applied. -/
def cloneFor (j : Job) (freshId : Nat) (k : Nat) (r : TorrentResult) : Job :=
  applyResult r
    { j.copyWithId freshId with converted_file_name := some (decorate j.converted_file_name k) }

/-- The clones produced for the results after the first, with counter starting
at `k` and ids drawn consecutively from `nextId`.  `j` is the job object after
the first result was applied to it (the Python loop mutates `job` in place at
counter 0, and `job.copy()` copies the mutated dictionary). -/
def fanOutClones (j : Job) (rs : List TorrentResult) (nextId k : Nat) :
    List Job × Nat :=
  match rs with
  | [] => ([], nextId)
  | r :: rest =>
      let c := cloneFor j nextId k r
      let out := fanOutClones j rest (nextId + 1) (k + 1)
      (c :: out.1, out.2)

/-- The list of jobs saved for one `SEARCHING` job with a non-empty result list
(the `else` branch of `src/jobs.py` lines 86-110), in save order, together with
the advanced fresh-id supply. -/
def fanOutJobs (j : Job) (results : List TorrentResult) (nextId : Nat) :
    List Job × Nat :=
  match results with
  | [] => ([], nextId)
  | r0 :: rest =>
      let first := applyResult r0 j
      let out := fanOutClones first rest nextId 1
      (first :: out.1, out.2)

/-- The body of the search-execution loop of `JobQueue.perform_searches`
(`src/jobs.py` lines 79-110) for one `SEARCHING` job: an empty result list
saves the job with status reset to `WAITING`; a non-empty list saves the
fan-out jobs in order. -/
def searchOneJob (s : QState) (j : Job) (results : List TorrentResult) : QState :=
  match results with
  | [] => { s with store := saveJob s.store { j with status := .waiting } }
  | _ :: _ =>
      let out := fanOutJobs j results s.nextId
      { store := out.1.foldl saveJob s.store, nextId := out.2 }

/-- `JobQueue.create_job` (`src/jobs.py` lines 38-47): a fresh job
(status `WAITING`, added today, download-only false), keyword and query set,
converted file name refreshed from the episode database, saved immediately. -/
def create_job (env : Env) (s : QState) (keyword query : String)
    (is_download_only : Bool) : Job × QState :=
  let j0 := Job.init s.nextId env.today {}
  let j1 := update_converted_file_name env
    { j0 with keyword := some keyword, query := some query,
              download_only := is_download_only }
  (j1, { store := saveJob s.store j1, nextId := s.nextId + 1 })

/-- The body of the candidate loop of `JobQueue.create_new_search_jobs`
(`src/jobs.py` lines 196-210): skip when `is_existing_job` holds, otherwise
create the job (which saves it as `WAITING`), set status `SEARCHING` and the
download-only flag, overwrite the converted file name for conversion jobs, and
save again. -/
def processCandidate (env : Env) (s : QState) (c : Candidate) : QState :=
  if is_existing_job s.store c.keyword c.search_string then s
  else
    let out := create_job env s c.keyword c.search_string false
    let job := { out.1 with status := JobStatus.searching,
                            download_only := c.is_download_only }
    let job := if c.is_download_only then job
               else { job with converted_file_name := some c.plex_title_sub }
    { out.2 with store := saveJob out.2.store job }

/-- `JobQueue.create_new_search_jobs` (`src/jobs.py` lines 188-210), folded over
the candidates discovered for the cycle's airdate. -/
def create_new_search_jobs (env : Env) (s : QState) : QState :=
  env.candidates.foldl (processCandidate env) s

/-- The pruning prologue of `JobQueue.perform_searches` (`src/jobs.py` lines
58-61): delete every `COMPLETED` job whose `added` date differs from the
cycle's reference date. -/
def pruneCompleted (refdate : String) (st : Store) : Store :=
  ((byStatus st .completed).filter (fun j => j.added != refdate)).foldl
    (fun acc j => deleteJob acc j.job_id) st

/-- The body of the promotion loop of `perform_searches`: the job becomes
`SEARCHING`, its converted file name is refreshed, and it is saved. -/
def promoteStep (env : Env) (acc : Store) (j : Job) : Store :=
  saveJob acc (update_converted_file_name env { j with status := .searching })

/-- The promotion loop of `JobQueue.perform_searches` (`src/jobs.py` lines
63-66): every `WAITING` job becomes `SEARCHING`, its converted file name is
refreshed, and it is saved. -/
def promoteWaiting (env : Env) (st : Store) : Store :=
  (byStatus st .waiting).foldl (promoteStep env) st

/-- The body of the search-execution loop of `perform_searches`: run the
provider search for the job's query and process the results. -/
def searchStep (env : Env) (acc : QState) (j : Job) : QState :=
  searchOneJob acc j (env.search j.query)

/-- `JobQueue.perform_searches` (`src/jobs.py` lines 55-113): prune stale
completed jobs, promote waiting jobs, run discovery, then execute every
`SEARCHING` job's search. -/
def perform_searches (env : Env) (refdate : String) (s : QState) : QState :=
  let st1 := pruneCompleted refdate s.store
  let st2 := promoteWaiting env st1
  let s3 := create_new_search_jobs env { store := st2, nextId := s.nextId }
  (byStatus s3.store .searching).foldl (searchStep env) s3

/-! ## Acquisition stage -/

/-- The dictionary returned by `client.core.get_torrent_status`. -/
structure TorrentStatus where
  name : String
  download_location : String
  is_finished : Bool
deriving DecidableEq, Repr

/-- The Deluge daemon, at its interface boundary.  `prefetch` models
`client.core.prefetch_magnet_metadata`: the returned pair is the encoded id (or
`None`) and the metadata dictionary (or `None`); the metadata dictionary is
reduced to its `"name"` entry, the only one read. -/
structure DelugeOracle where
  prefetch : Option String → Option String × Option (Option String)
  torrent_status : Option String → TorrentStatus

/-- A raised Python exception. -/
inductive PyError where
  | attributeError (attr : String)
deriving DecidableEq, Repr

/-- The per-job loop of `JobQueue.add_torrents` (`src/jobs.py` lines 129-147).
A prefetch with no id logs an error and returns from `add_torrents`, abandoning
the rest of the batch; a prefetch with an id but no metadata logs an error and
then raises `AttributeError` at `metadata.get`, since `metadata` is `None`;
otherwise the torrent is added, the daemon's hash, location and name are
captured, and the job advances to `DOWNLOADING`. -/
def add_torrents_loop (d : DelugeOracle) (st : Store) :
    List Job → Except PyError Store
  | [] => .ok st
  | j :: rest =>
      match d.prefetch j.magnet_link with
      | (none, _) => .ok st
      | (some _, none) => .error (.attributeError "get")
      | (some tid, some meta_name) =>
          let torrent := d.torrent_status (some tid)
          let j' := { j with
            torrent_hash := some tid,
            download_directory := some torrent.download_location,
            name := some (meta_name.getD torrent.name),
            status := JobStatus.downloading }
          add_torrents_loop d (saveJob st j') rest

/-- `JobQueue.add_torrents` (`src/jobs.py` lines 115-147). -/
def add_torrents (d : DelugeOracle) (st : Store) : Except PyError Store :=
  add_torrents_loop d st (byStatus st .adding)

/-- `JobQueue.query_torrents_status` (`src/jobs.py` lines 149-169): every
`DOWNLOADING` job whose torrent the daemon reports finished captures the final
name and advances to `PENDING`. -/
def query_torrents_status (d : DelugeOracle) (st : Store) : Store :=
  (byStatus st .downloading).foldl
    (fun acc j =>
      let torrent := d.torrent_status j.torrent_hash
      if torrent.is_finished then
        saveJob acc { j with name := some torrent.name, status := .pending }
      else acc)
    st

/-! ## Conversion stage

`perform_conversions` is embedded with an event trace so that the order
between status checkpoints and conversion work is observable.  A `save` event
is a persisted status write, a `work` event is a `shutil.copytree` or
`Converter.convert_file` invocation, a `del` event is a record deletion. -/

/-- Observable events of the conversion stage. -/
inductive Event where
  | save (id : Nat) (status : JobStatus)
  | work (id : Nat)
  | del (id : Nat)
deriving DecidableEq, Repr

/-- Whether an event is a persisted `CONVERTING` checkpoint. -/
def Event.isConvertingSave : Event → Bool
  | .save _ .converting => true
  | _ => false

/-- Whether an event is copy or conversion work. -/
def Event.isWork : Event → Bool
  | .work _ => true
  | _ => false

/-- The conversion stage's view of the file system: the number of files in the
job's download directory matching the episode pattern
`(.*)s([0-9]+)e([0-9]+)(.*)(\.mkv|\.mp4)`, in sorted order
(`src/jobs.py` lines 232-237). -/
structure ConvOracle where
  matchingFiles : Job → Nat

/-- `JobQueue.mark_job_complete` (`src/jobs.py` lines 260-266): set `COMPLETED`,
save, and delete the record when today's date differs from the job's `added`
date. -/
def mark_job_complete (today : String) (st : Store) (j : Job) :
    Store × List Event :=
  let j' := { j with status := JobStatus.completed }
  let st1 := saveJob st j'
  if today == j'.added then (st1, [.save j.job_id .completed])
  else (deleteJob st1 j'.job_id, [.save j.job_id .completed, .del j.job_id])

/-- `JobQueue.copy_downloaded_files` (`src/jobs.py` lines 212-225): copy the
downloaded tree, then mark the job complete. -/
def copyJob (today : String) (st : Store) (j : Job) : Store × List Event :=
  let out := mark_job_complete today st j
  (out.1, Event.work j.job_id :: out.2)

/-- The file loop of `JobQueue.convert_downloaded_files` (`src/jobs.py` lines
227-258): each matching file is converted and the job marked complete; with no
matching file the job is left as it is. -/
def convertLoop (today : String) (st : Store) (j : Job) :
    Nat → Store × List Event
  | 0 => (st, [])
  | n + 1 =>
      let out1 := mark_job_complete today st j
      let out2 := convertLoop today out1.1 j n
      (out2.1, (Event.work j.job_id :: out1.2) ++ out2.2)

/-- The phase-2 body of `JobQueue.perform_conversions` for one job (the job
object holds status `CONVERTING` from phase 1). -/
def convertOne (co : ConvOracle) (today : String) (st : Store) (j : Job) :
    Store × List Event :=
  let jc := { j with status := JobStatus.converting }
  if j.download_only then copyJob today st jc
  else convertLoop today st jc (co.matchingFiles j)

/-- One step of phase 2 of `perform_conversions`: run the copy/conversion of
one job on the current store and append its events to the trace. -/
def convStep (co : ConvOracle) (today : String) (acc : Store × List Event)
    (j : Job) : Store × List Event :=
  let out := convertOne co today acc.1 j
  (out.1, acc.2 ++ out.2)

/-- `JobQueue.perform_conversions` (`src/jobs.py` lines 171-186): first loop
marks every `PENDING` job `CONVERTING` and saves it; second loop copies or
converts each of those jobs. -/
def perform_conversions (co : ConvOracle) (today : String) (st : Store) :
    Store × List Event :=
  let pending := byStatus st .pending
  let st1 := pending.foldl
    (fun acc j => saveJob acc { j with status := JobStatus.converting }) st
  let tr1 := pending.map (fun j => Event.save j.job_id .converting)
  let out := pending.foldl (convStep co today) (st1, [])
  (out.1, tr1 ++ out.2)

/-! ## Orchestrator -/

/-- The skip flags of the `jobs process` command (`src/infieldfly.py`
`process_jobs`, lines 232-248). -/
structure SkipFlags where
  skip_search : Bool := false
  skip_add_downloads : Bool := false
  skip_query_downloads : Bool := false
  skip_convert : Bool := false
deriving DecidableEq, Repr

/-- `process_jobs` (`src/infieldfly.py` lines 232-248): one cycle, running the
search, add, query and convert stages in order, each unless skipped.  An
exception raised by a stage propagates. -/
def process_jobs (env : Env) (d : DelugeOracle) (co : ConvOracle)
    (flags : SkipFlags) (refdate : String) (s : QState) :
    Except PyError QState :=
  let s1 := if flags.skip_search then s else perform_searches env refdate s
  match (if flags.skip_add_downloads then .ok s1.store
         else add_torrents d s1.store : Except PyError Store) with
  | .error e => .error e
  | .ok st2 =>
      let st3 := if flags.skip_query_downloads then st2
                 else query_torrents_status d st2
      let st4 := if flags.skip_convert then st3
                 else (perform_conversions co env.today st3).1
      .ok { store := st4, nextId := s1.nextId }

/-! ## Administrative job update (`src/infieldfly.py` `update_job`)

Python attribute access is modelled explicitly: calling a method resolves its
name against the methods the class defines, and a name that resolves to
nothing raises `AttributeError` before anything else happens. -/

/-- The methods defined by `class JobQueue` in `src/jobs.py`. -/
def jobQueueMethods : List String :=
  ["__init__", "get_job_by_id", "create_job", "get_jobs_by_status",
   "perform_searches", "add_torrents", "query_torrents_status",
   "perform_conversions", "create_new_search_jobs", "copy_downloaded_files",
   "convert_downloaded_files", "mark_job_complete", "is_existing_job",
   "load_jobs", "job_queue_file_path"]

/-- The methods defined by `class TorrentDataProvider` in `src/search.py`. -/
def torrentDataProviderMethods : List String :=
  ["__init__", "user_agent", "get_token", "get_data", "search",
   "create_torrent_result"]

/-- Outcome of the `jobs update` command. -/
inductive UpdateOutcome where
  | job_not_found
  | unknown_status
  | raised (e : PyError)
  | updated
deriving DecidableEq, Repr

/-- `update_job` (`src/infieldfly.py` lines 193-210): look the job up, reject a
status string that is no `JobStatus` value, and for status `"adding"` with a
magnet URL build a torrent result and call `job_queue.set_job_search_result`;
any other accepted status is written to the job and saved. -/
def update_job (st : Store) (job_id : Nat) (statusArg : String)
    (magnet_url : Option String) : UpdateOutcome × Store :=
  match lookupJob st job_id with
  | none => (.job_not_found, st)
  | some job =>
      if ¬ (statusArg ∈ jobStatusValues) then (.unknown_status, st)
      else if pyLower statusArg == "adding" && magnet_url.isSome then
        if ¬ ("create_torrent_result" ∈ torrentDataProviderMethods) then
          (.raised (.attributeError "create_torrent_result"), st)
        else if ¬ ("set_job_search_result" ∈ jobQueueMethods) then
          (.raised (.attributeError "set_job_search_result"), st)
        else (.updated, st)
      else
        (.updated, saveJob st { job with status := JobStatus.ofValue statusArg })

/-! ## Persistence of one record (`Job.save`, `Job.load`)

`Job.save` is modelled at the level of the file-system operations it issues on
the job's record file, so that crash points between operations are
expressible: running a prefix of the operation list is the state left behind
by a crash after the last operation of the prefix. -/

/-- State of the store directory and of one job's record file. -/
structure FsState where
  dirExists : Bool
  content : Option String
deriving DecidableEq, Repr

/-- Primitive file-system operations on the record file. -/
inductive FsOp where
  | mkdirIfAbsent
  | openTruncate
  | writeChunk (s : String)
  | renameInto (s : String)
deriving DecidableEq, Repr

/-- Effect of one operation: `openTruncate` is `open(path, "w")`, which
truncates the file (creating it if needed); `writeChunk` appends;
`renameInto` atomically replaces the whole content (issued by no operation of
`Job.save`, listed so that its absence is expressible). -/
def applyFsOp (fs : FsState) : FsOp → FsState
  | .mkdirIfAbsent => { fs with dirExists := true }
  | .openTruncate => { fs with content := some "" }
  | .writeChunk s => { fs with content := some ((fs.content.getD "") ++ s) }
  | .renameInto s => { fs with content := some s }

/-- Run a list of file-system operations. -/
def runFsOps (ops : List FsOp) (fs : FsState) : FsState :=
  ops.foldl applyFsOp fs

/-- Serialized JSON text of a job's dictionary (`json.dump`).  The exact layout
is irrelevant to the claims; what matters is that it is the complete new
content and is never empty. -/
def Job.serialize (j : Job) : String :=
  "\x7b \"id\": \"" ++ natToDec j.job_id ++ "\", \"status\": \""
    ++ j.status.value ++ "\", \"added\": \"" ++ j.added ++ "\" \x7d"

/-- The operations issued by `Job.save` (`src/jobs.py` lines 522-533): create
the store directory if absent, then `open(self.file_path, "w")` — truncating
the record in place — and stream the serialized dictionary into it.  No
temporary file and no rename is involved. -/
def save_ops (j : Job) : List FsOp :=
  [.mkdirIfAbsent, .openTruncate, .writeChunk j.serialize]

/-! ## Loading the whole store (`JobQueue.load_jobs`, `Job.load`) -/

/-- What `json.load` finds in one record file: a parsed dictionary, or a parse
failure (which raises `json.decoder.JSONDecodeError`). -/
inductive JsonParse where
  | ok (r : JobRecord)
  | malformed
deriving DecidableEq, Repr

/-- `JobQueue.load_jobs` (`src/jobs.py` lines 280-290) over the record files of
the store directory: each file is read by `Job.load` (lines 493-504), whose
`json.load` call raises on a malformed file; the loop body has no exception
handler, so the first failure aborts the whole load. -/
def load_jobs (today : String) : Nat → List JsonParse → Except String (List Job)
  | _, [] => .ok []
  | _, JsonParse.malformed :: _ => .error "json.decoder.JSONDecodeError"
  | n, JsonParse.ok r :: rest =>
      match load_jobs today (n + 1) rest with
      | .error e => .error e
      | .ok js => .ok (Job.init n today r :: js)

/-- Partial inverse of `Nat.digitChar` on decimal digits, used to prove that
the decimal rendering of the fan-out counter is injective. -/
def digitCharRev (c : Char) : Nat :=
  if c = '0' then 0 else if c = '1' then 1 else if c = '2' then 2
  else if c = '3' then 3 else if c = '4' then 4 else if c = '5' then 5
  else if c = '6' then 6 else if c = '7' then 7 else if c = '8' then 8
  else 9

/-! ## Store lemmas -/

theorem mem_saveJob_elim {st : Store} {j x : Job} (h : x ∈ saveJob st j) :
    x ∈ st ∨ x = j := by
  unfold saveJob at h
  split at h
  · rcases List.mem_map.mp h with ⟨y, hy, hxy⟩
    by_cases hid : y.job_id = j.job_id
    · right
      simpa [hid] using hxy.symm
    · left
      have hxy' : y = x := by simpa [hid] using hxy
      exact hxy' ▸ hy
  · rcases List.mem_append.mp h with h' | h'
    · exact Or.inl h'
    · exact Or.inr (List.mem_singleton.mp h')

theorem self_mem_saveJob (st : Store) (j : Job) : j ∈ saveJob st j := by
  unfold saveJob
  split
  · rename_i hany
    rcases List.any_eq_true.mp hany with ⟨y, hy, hyid⟩
    exact List.mem_map.mpr ⟨y, hy, by simp [hyid]⟩
  · simp

theorem mem_saveJob_of_ne {st : Store} {x j : Job} (hx : x ∈ st)
    (hne : x.job_id ≠ j.job_id) : x ∈ saveJob st j := by
  unfold saveJob
  split
  · exact List.mem_map.mpr ⟨x, hx, by simp [hne]⟩
  · simp [hx]

theorem mem_deleteJob {st : Store} {x : Job} {i : Nat} :
    x ∈ deleteJob st i ↔ x ∈ st ∧ x.job_id ≠ i := by
  simp [deleteJob, List.mem_filter, bne_iff_ne]

theorem mem_byStatus {st : Store} {x : Job} {s : JobStatus} :
    x ∈ byStatus st s ↔ x ∈ st ∧ x.status = s := by
  simp [byStatus, List.mem_filter]

theorem nodup_ids_saveJob {st : Store} {j : Job}
    (h : (st.map Job.job_id).Nodup) :
    ((saveJob st j).map Job.job_id).Nodup := by
  unfold saveJob
  split
  · have hids : (st.map fun x => if x.job_id == j.job_id then j else x).map Job.job_id
        = st.map Job.job_id := by
      rw [List.map_map]
      apply List.map_congr_left
      intro x _
      by_cases hid : x.job_id = j.job_id <;> simp [hid, Function.comp]
    rw [hids]
    exact h
  · rename_i hany
    have hnotin : j.job_id ∉ st.map Job.job_id := by
      intro hmem
      rcases List.mem_map.mp hmem with ⟨y, hy, hyid⟩
      have : st.any (fun x => x.job_id == j.job_id) = true :=
        List.any_eq_true.mpr ⟨y, hy, by simp [hyid]⟩
      simp [this] at hany
    simp only [List.map_append, List.map_cons, List.map_nil]
    exact List.Nodup.append h (List.nodup_singleton _)
      (by simpa [List.disjoint_singleton] using hnotin)

theorem nodup_ids_deleteJob {st : Store} {i : Nat}
    (h : (st.map Job.job_id).Nodup) :
    ((deleteJob st i).map Job.job_id).Nodup :=
  ((List.filter_sublist st).map Job.job_id).nodup h

theorem serialize_ne_empty (j : Job) : j.serialize ≠ "" := by
  intro h
  have hlen := congrArg String.length h
  rw [Job.serialize] at hlen
  simp only [String.length_append] at hlen
  have h9 : ("\x7b \"id\": \"" : String).length = 9 := rfl
  have h0 : ("" : String).length = 0 := rfl
  rw [h9, h0] at hlen
  omega

/-- C4: for every job in status SEARCHING whose search returns an empty result
set, `perform_searches` saves the job with status reset to WAITING; the job is
not deleted, and no other field (keyword, query, added, magnet_link, title,
torrent_hash) is modified by this branch. -/
theorem searching_empty_result_resets_to_waiting
    (env : Env) (s : QState) (j : Job)
    (_hst : j.status = JobStatus.searching)
    (hres : env.search j.query = []) :
    searchOneJob s j (env.search j.query)
        = { s with store := saveJob s.store { j with status := JobStatus.waiting } } ∧
    { j with status := JobStatus.waiting }
        ∈ (searchOneJob s j (env.search j.query)).store ∧
    Job.keyword { j with status := JobStatus.waiting } = j.keyword ∧
    Job.query { j with status := JobStatus.waiting } = j.query ∧
    Job.added { j with status := JobStatus.waiting } = j.added ∧
    Job.magnet_link { j with status := JobStatus.waiting } = j.magnet_link ∧
    Job.title { j with status := JobStatus.waiting } = j.title ∧
    Job.torrent_hash { j with status := JobStatus.waiting } = j.torrent_hash := by
  rw [hres]
  exact ⟨rfl, self_mem_saveJob _ _, rfl, rfl, rfl, rfl, rfl, rfl⟩

theorem searching_empty_result_resets_to_waiting_witness :
    let env : Env := { today := "2026-10-12", search := fun _ => [],
                       ucfn := fun _ _ _ => none, candidates := [] }
    let j : Job := { job_id := 0, status := JobStatus.searching,
                     added := "2026-10-12", query := some "show s01e02" }
    let s : QState := { store := [j], nextId := 1 }
    j.status = JobStatus.searching ∧ env.search j.query = [] ∧
    { j with status := JobStatus.waiting }
        ∈ (searchOneJob s j (env.search j.query)).store :=
  ⟨rfl, rfl, (searching_empty_result_resets_to_waiting _ _ _ rfl rfl).2.1⟩

/-- C5 counterexample: a persisted record with an absent status entry
deserializes to WAITING, not to UNKNOWN (`src/jobs.py` lines 328-329). -/
theorem status_absent_deserializes_to_waiting :
    (Job.init 0 "2026-10-12" {}).status = JobStatus.waiting ∧
    JobStatus.waiting ≠ JobStatus.unknown :=
  ⟨rfl, by decide⟩

/-- C5 amended: deserializing a persisted record never raises on the status
field; an absent status deserializes to WAITING, and a present but
unrecognized status string deserializes to UNKNOWN. -/
theorem status_deserialization_total
    (freshId : Nat) (today : String) (r : JobRecord) :
    (r.status = none → (Job.init freshId today r).status = JobStatus.waiting) ∧
    (∀ v, r.status = some v → v ∉ jobStatusValues →
      (Job.init freshId today r).status = JobStatus.unknown) := by
  constructor
  · intro h
    simp [Job.init, statusFromRecord, h]
  · intro v hv hnot
    simp only [jobStatusValues, List.mem_cons, List.not_mem_nil, or_false,
      not_or] at hnot
    obtain ⟨h1, h2, h3, h4, h5, h6, h7, h8⟩ := hnot
    simp [Job.init, statusFromRecord, hv, JobStatus.ofValue,
      h1, h2, h3, h4, h5, h6, h7, h8]

theorem status_deserialization_total_witness :
    ({ status := some "bogus" } : JobRecord).status = some "bogus" ∧
    "bogus" ∉ jobStatusValues ∧
    (Job.init 7 "2026-10-12" { status := some "bogus" }).status
        = JobStatus.unknown :=
  ⟨rfl, by decide,
    (status_deserialization_total 7 "2026-10-12" _).2 "bogus" rfl (by decide)⟩

/-- C6 counterexample: a store holding one well-formed record and one corrupt
record makes `load_jobs` raise `json.decoder.JSONDecodeError`; the well-formed
record is not returned (the whole batch is aborted, nothing is skipped). -/
theorem load_jobs_corrupt_aborts_batch :
    load_jobs "2026-10-12" 0 [JsonParse.ok {}, JsonParse.malformed]
        = Except.error "json.decoder.JSONDecodeError" ∧
    (load_jobs "2026-10-12" 0 [JsonParse.ok {}, JsonParse.malformed]).toOption
        = none :=
  ⟨rfl, rfl⟩

/-- C6 amended: `load_jobs` reads every record file in the store directory:
when every record parses, one job per record is returned; but a record that
fails to parse raises, aborting the whole load — no record is skipped and no
other record is returned. -/
theorem load_jobs_all_or_abort (today : String) (n : Nat)
    (files : List JsonParse) :
    (JsonParse.malformed ∈ files →
      load_jobs today n files = Except.error "json.decoder.JSONDecodeError") ∧
    ((∀ f ∈ files, f ≠ JsonParse.malformed) →
      ∃ l : List Job, load_jobs today n files = Except.ok l ∧
        l.length = files.length) := by
  induction files generalizing n with
  | nil =>
      refine ⟨fun h => absurd h (List.not_mem_nil _), fun _ => ⟨[], rfl, rfl⟩⟩
  | cons f rest ih =>
      constructor
      · intro hmem
        cases f with
        | malformed => rfl
        | ok r =>
            have hrest : JsonParse.malformed ∈ rest := by
              simpa using hmem
            have herr := (ih (n + 1)).1 hrest
            simp [load_jobs, herr]
      · intro hall
        cases f with
        | malformed => exact absurd rfl (hall _ (List.mem_cons_self _ _))
        | ok r =>
            obtain ⟨l, hl, hlen⟩ :=
              (ih (n + 1)).2 (fun g hg => hall g (List.mem_cons_of_mem _ hg))
            exact ⟨Job.init n today r :: l, by simp [load_jobs, hl],
              by simp [hlen]⟩

theorem load_jobs_all_or_abort_witness :
    JsonParse.malformed ∈ [JsonParse.ok ({} : JobRecord), JsonParse.malformed] ∧
    load_jobs "2026-10-11" 5 [JsonParse.ok {}, JsonParse.malformed]
        = Except.error "json.decoder.JSONDecodeError" :=
  ⟨by decide, (load_jobs_all_or_abort "2026-10-11" 5 _).1 (by decide)⟩

/-- C7 counterexample: `Job.save` truncates the record file in place, so a
crash between the truncating open and the completed write leaves the record
empty — neither the complete old content nor the complete new content. -/
theorem save_crash_leaves_partial_record :
    let jOld : Job := { job_id := 1, status := JobStatus.waiting,
                        added := "2026-10-11" }
    let jNew : Job := { jOld with status := JobStatus.completed }
    let fs0 : FsState := { dirExists := true, content := some jOld.serialize }
    (runFsOps ((save_ops jNew).take 2) fs0).content = some "" ∧
    (some "" : Option String) ≠ some jOld.serialize ∧
    (some "" : Option String) ≠ some jNew.serialize := by
  refine ⟨rfl, ?_, ?_⟩ <;>
    exact fun h => serialize_ne_empty _ (Option.some_injective _ h).symm

/-- C7 amended: `Job.save` creates the store directory if absent and writes the
record by truncating the job file in place and streaming the new serialization
into it; it uses no write-then-rename, and a crash between the truncation and
the completed write leaves the record empty, which is neither the old nor the
new complete content.  A run of all operations stores the complete new
content. -/
theorem save_truncates_in_place (j : Job) (fs : FsState) :
    runFsOps (save_ops j) fs
        = { dirExists := true, content := some j.serialize } ∧
    (runFsOps ((save_ops j).take 2) fs).content = some "" ∧
    (∀ op ∈ save_ops j, ∀ s, op ≠ FsOp.renameInto s) ∧
    j.serialize ≠ "" := by
  refine ⟨?_, rfl, ?_, serialize_ne_empty j⟩
  · simp [runFsOps, save_ops, applyFsOp]
  · intro op hop s
    simp only [save_ops, List.mem_cons, List.not_mem_nil, or_false] at hop
    rcases hop with h | h | h <;> subst h <;> simp

/-! ## Conversion-stage lemmas -/

theorem mark_job_complete_trace (today : String) (st : Store) (j : Job) :
    (mark_job_complete today st j).2
      = if today == j.added then [Event.save j.job_id JobStatus.completed]
        else [Event.save j.job_id JobStatus.completed, Event.del j.job_id] := by
  unfold mark_job_complete
  split <;> rename_i h <;> simp_all

theorem mark_job_complete_store (today : String) (st : Store) (j : Job) :
    (mark_job_complete today st j).1
      = if today == j.added then
          saveJob st { j with status := JobStatus.completed }
        else
          deleteJob (saveJob st { j with status := JobStatus.completed })
            j.job_id := by
  unfold mark_job_complete
  split <;> rename_i h <;> simp_all

theorem mark_preserves_other {today : String} {st : Store} {j x : Job}
    (hx : x ∈ st) (hne : x.job_id ≠ j.job_id) :
    x ∈ (mark_job_complete today st j).1 := by
  rw [mark_job_complete_store]
  split
  · exact mem_saveJob_of_ne hx hne
  · exact mem_deleteJob.mpr ⟨mem_saveJob_of_ne hx hne, hne⟩

theorem mark_mem_elim {today : String} {st : Store} {j x : Job}
    (h : x ∈ (mark_job_complete today st j).1) :
    x ∈ st ∨ x.job_id = j.job_id := by
  rw [mark_job_complete_store] at h
  split at h
  · rcases mem_saveJob_elim h with h' | h'
    · exact Or.inl h'
    · exact Or.inr (by rw [h'])
  · rcases mem_saveJob_elim (mem_deleteJob.mp h).1 with h' | h'
    · exact Or.inl h'
    · exact Or.inr (by rw [h'])

theorem mark_result_present {today : String} {st : Store} {j : Job}
    (h : (today == j.added) = true) :
    { j with status := JobStatus.completed } ∈ (mark_job_complete today st j).1 := by
  rw [mark_job_complete_store, if_pos h]
  exact self_mem_saveJob _ _

theorem mark_result_absent {today : String} {st : Store} {j : Job}
    (h : (today == j.added) = false) :
    ∀ x ∈ (mark_job_complete today st j).1, x.job_id ≠ j.job_id := by
  rw [mark_job_complete_store, if_neg (by simp [h])]
  intro x hx
  exact (mem_deleteJob.mp hx).2

theorem convertLoop_preserves_other (today : String) (j x : Job)
    (hne : x.job_id ≠ j.job_id) :
    ∀ (n : Nat) (st : Store), x ∈ st → x ∈ (convertLoop today st j n).1
  | 0, _, hx => hx
  | n + 1, _, hx =>
      convertLoop_preserves_other today j x hne n _ (mark_preserves_other hx hne)

theorem convertLoop_mem_elim (today : String) (j : Job) :
    ∀ (n : Nat) (st : Store) (x : Job), x ∈ (convertLoop today st j n).1 →
      x ∈ st ∨ x.job_id = j.job_id
  | 0, _, _, hx => Or.inl hx
  | n + 1, _, x, hx => by
      rcases convertLoop_mem_elim today j n _ x hx with h' | h'
      · exact mark_mem_elim h'
      · exact Or.inr h'

theorem convertLoop_result_present (today : String) (j : Job)
    (h : (today == j.added) = true) :
    ∀ (n : Nat) (st : Store), 0 < n →
      { j with status := JobStatus.completed } ∈ (convertLoop today st j n).1
  | 1, _, _ => mark_result_present h
  | n + 2, _, _ =>
      convertLoop_result_present today j h (n + 1) _ (Nat.succ_pos _)

theorem convertLoop_result_absent (today : String) (j : Job)
    (h : (today == j.added) = false) :
    ∀ (n : Nat) (st : Store), 0 < n →
      ∀ x ∈ (convertLoop today st j n).1, x.job_id ≠ j.job_id
  | 1, _, _ => fun x hx => mark_result_absent h x hx
  | n + 2, _, _ =>
      convertLoop_result_absent today j h (n + 1) _ (Nat.succ_pos _)

theorem convertLoop_events_shape (today : String) (j : Job) :
    ∀ (n : Nat) (st : Store), ∀ e ∈ (convertLoop today st j n).2,
      e = Event.work j.job_id ∨ e = Event.save j.job_id JobStatus.completed ∨
        e = Event.del j.job_id := by
  intro n
  induction n with
  | zero => intro st e he; simp [convertLoop] at he
  | succ n ih =>
      intro st e he
      simp only [convertLoop, List.cons_append, List.mem_cons,
        List.mem_append] at he
      rcases he with he | he | he
      · exact Or.inl he
      · rw [mark_job_complete_trace] at he
        split at he <;> simp_all
      · exact ih _ e he

theorem convertLoop_no_del (today : String) (j : Job)
    (h : (today == j.added) = true) :
    ∀ (n : Nat) (st : Store), Event.del j.job_id ∉ (convertLoop today st j n).2 := by
  intro n
  induction n with
  | zero => intro st he; simp [convertLoop] at he
  | succ n ih =>
      intro st he
      simp only [convertLoop, List.cons_append, List.mem_cons,
        List.mem_append] at he
      rcases he with he | he | he
      · exact absurd he (by simp)
      · rw [mark_job_complete_trace, if_pos h] at he
        simp at he
      · exact ih _ he

theorem convertLoop_mem_save (today : String) (j : Job) :
    ∀ (n : Nat) (st : Store), 0 < n →
      Event.save j.job_id JobStatus.completed ∈ (convertLoop today st j n).2 := by
  intro n
  induction n with
  | zero => intro _ h; exact absurd h (by simp)
  | succ n _ =>
      intro st _
      simp only [convertLoop, List.cons_append, List.mem_cons, List.mem_append]
      right; left
      rw [mark_job_complete_trace]
      split <;> simp

theorem convertLoop_mem_del (today : String) (j : Job)
    (h : (today == j.added) = false) :
    ∀ (n : Nat) (st : Store), 0 < n →
      Event.del j.job_id ∈ (convertLoop today st j n).2 := by
  intro n
  induction n with
  | zero => intro _ hn; exact absurd hn (by simp)
  | succ n _ =>
      intro st _
      simp only [convertLoop, List.cons_append, List.mem_cons, List.mem_append]
      right; left
      rw [mark_job_complete_trace, if_neg (by simp_all)]
      simp

theorem convertOne_eq (co : ConvOracle) (today : String) (st : Store) (j : Job) :
    convertOne co today st j
      = if j.download_only then
          copyJob today st { j with status := JobStatus.converting }
        else
          convertLoop today st { j with status := JobStatus.converting }
            (co.matchingFiles j) := rfl

theorem copyJob_store (today : String) (st : Store) (j : Job) :
    (copyJob today st j).1 = (mark_job_complete today st j).1 := rfl

theorem copyJob_trace (today : String) (st : Store) (j : Job) :
    (copyJob today st j).2
      = Event.work j.job_id :: (mark_job_complete today st j).2 := rfl

theorem convertOne_preserves_other {co : ConvOracle} {today : String}
    {st : Store} {j x : Job} (hx : x ∈ st) (hne : x.job_id ≠ j.job_id) :
    x ∈ (convertOne co today st j).1 := by
  rw [convertOne_eq]
  split
  · rw [copyJob_store]
    exact mark_preserves_other hx hne
  · exact convertLoop_preserves_other today { j with status := JobStatus.converting } x hne _ st hx

theorem convertOne_mem_elim {co : ConvOracle} {today : String} {st : Store}
    {j x : Job} (h : x ∈ (convertOne co today st j).1) :
    x ∈ st ∨ x.job_id = j.job_id := by
  rw [convertOne_eq] at h
  split at h
  · rw [copyJob_store] at h
    exact mark_mem_elim h
  · exact convertLoop_mem_elim today { j with status := JobStatus.converting } _ st x h

theorem convertOne_result_present {co : ConvOracle} {today : String}
    {st : Store} {j : Job}
    (hsucc : j.download_only = true ∨ 0 < co.matchingFiles j)
    (hadded : (today == j.added) = true) :
    ∃ x ∈ (convertOne co today st j).1,
      x.job_id = j.job_id ∧ x.status = JobStatus.completed := by
  rw [convertOne_eq]
  split
  · rw [copyJob_store]
    exact ⟨_, @mark_result_present today st
      { j with status := JobStatus.converting } hadded, rfl, rfl⟩
  · rename_i hdl
    have hn : 0 < co.matchingFiles j := by
      rcases hsucc with h | h
      · exact absurd h (by simp_all)
      · exact h
    exact ⟨_, convertLoop_result_present today { j with status := JobStatus.converting } hadded _ st hn, rfl, rfl⟩

theorem convertOne_result_absent {co : ConvOracle} {today : String}
    {st : Store} {j : Job}
    (hsucc : j.download_only = true ∨ 0 < co.matchingFiles j)
    (hadded : (today == j.added) = false) :
    ∀ x ∈ (convertOne co today st j).1, x.job_id ≠ j.job_id := by
  rw [convertOne_eq]
  split
  · rw [copyJob_store]
    exact fun x hx => mark_result_absent hadded x hx
  · rename_i hdl
    have hn : 0 < co.matchingFiles j := by
      rcases hsucc with h | h
      · exact absurd h (by simp_all)
      · exact h
    exact fun x hx => convertLoop_result_absent today { j with status := JobStatus.converting } hadded _ st hn x hx

theorem convertOne_events_shape {co : ConvOracle} {today : String}
    {st : Store} {j : Job} :
    ∀ e ∈ (convertOne co today st j).2,
      e = Event.work j.job_id ∨ e = Event.save j.job_id JobStatus.completed ∨
        e = Event.del j.job_id := by
  rw [convertOne_eq]
  split
  · intro e he
    rw [copyJob_trace] at he
    rcases List.mem_cons.mp he with he | he
    · exact Or.inl he
    · rw [mark_job_complete_trace] at he
      split at he <;> simp_all
  · intro e he
    exact convertLoop_events_shape today { j with status := JobStatus.converting } _ st e he

theorem convertOne_no_del {co : ConvOracle} {today : String} {st : Store}
    {j : Job} (hadded : (today == j.added) = true) :
    Event.del j.job_id ∉ (convertOne co today st j).2 := by
  rw [convertOne_eq]
  split
  · intro he
    rw [copyJob_trace] at he
    rcases List.mem_cons.mp he with he | he
    · simp at he
    · rw [mark_job_complete_trace, if_pos hadded] at he
      simp at he
  · exact convertLoop_no_del today { j with status := JobStatus.converting } hadded _ st

theorem convertOne_mem_save {co : ConvOracle} {today : String} {st : Store}
    {j : Job} (hsucc : j.download_only = true ∨ 0 < co.matchingFiles j) :
    Event.save j.job_id JobStatus.completed ∈ (convertOne co today st j).2 := by
  rw [convertOne_eq]
  split
  · rw [copyJob_trace]
    apply List.mem_cons_of_mem
    rw [mark_job_complete_trace]
    split <;> simp
  · rename_i hdl
    have hn : 0 < co.matchingFiles j := by
      rcases hsucc with h | h
      · exact absurd h (by simp_all)
      · exact h
    exact convertLoop_mem_save today { j with status := JobStatus.converting } _ st hn

theorem convertOne_mem_del {co : ConvOracle} {today : String} {st : Store}
    {j : Job} (hsucc : j.download_only = true ∨ 0 < co.matchingFiles j)
    (hadded : (today == j.added) = false) :
    Event.del j.job_id ∈ (convertOne co today st j).2 := by
  rw [convertOne_eq]
  split
  · rw [copyJob_trace]
    apply List.mem_cons_of_mem
    rw [mark_job_complete_trace, if_neg (by simp_all)]
    simp
  · rename_i hdl
    have hn : 0 < co.matchingFiles j := by
      rcases hsucc with h | h
      · exact absurd h (by simp_all)
      · exact h
    exact convertLoop_mem_del today { j with status := JobStatus.converting } hadded _ st hn

theorem foldl_convStep_trace (co : ConvOracle) (today : String) :
    ∀ (l : List Job) (acc : Store × List Event),
      ∃ t, (l.foldl (convStep co today) acc).2 = acc.2 ++ t
  | [], acc => ⟨[], by simp⟩
  | j :: l, acc => by
      obtain ⟨t, ht⟩ := foldl_convStep_trace co today l (convStep co today acc j)
      exact ⟨(convertOne co today acc.1 j).2 ++ t, by
        simpa [convStep, List.append_assoc] using ht⟩

theorem foldl_convStep_events (co : ConvOracle) (today : String)
    (P : Event → Prop) :
    ∀ (l : List Job) (acc : Store × List Event),
      (∀ y ∈ l, ∀ st : Store, ∀ e ∈ (convertOne co today st y).2, P e) →
      (∀ e ∈ acc.2, P e) →
      ∀ e ∈ (l.foldl (convStep co today) acc).2, P e
  | [], _, _, hacc => hacc
  | y :: l, acc, hstep, hacc => by
      apply foldl_convStep_events co today P l (convStep co today acc y)
        (fun z hz => hstep z (List.mem_cons_of_mem _ hz))
      intro e he
      rcases List.mem_append.mp he with he | he
      · exact hacc e he
      · exact hstep y (List.mem_cons_self _ _) acc.1 e he

theorem foldl_convStep_mem (co : ConvOracle) (today : String) (e : Event) :
    ∀ (l : List Job) (acc : Store × List Event) (j : Job), j ∈ l →
      (∀ st : Store, e ∈ (convertOne co today st j).2) →
      e ∈ (l.foldl (convStep co today) acc).2
  | [], _, _, hj, _ => absurd hj (List.not_mem_nil _)
  | y :: l, acc, j, hj, he => by
      rcases List.mem_cons.mp hj with rfl | hj'
      · obtain ⟨t, ht⟩ :=
          foldl_convStep_trace co today l (convStep co today acc j)
        rw [List.foldl_cons, ht]
        exact List.mem_append_left _ (List.mem_append_right _ (he acc.1))
      · exact foldl_convStep_mem co today e l (convStep co today acc y) j hj' he

theorem foldl_convStep_preserves_other (co : ConvOracle) (today : String)
    (x : Job) :
    ∀ (l : List Job) (acc : Store × List Event),
      (∀ y ∈ l, y.job_id ≠ x.job_id) → x ∈ acc.1 →
      x ∈ (l.foldl (convStep co today) acc).1
  | [], _, _, hx => hx
  | y :: l, acc, hl, hx => by
      apply foldl_convStep_preserves_other co today x l _
        (fun z hz => hl z (List.mem_cons_of_mem _ hz))
      exact convertOne_preserves_other hx
        (fun h => hl y (List.mem_cons_self _ _) h.symm)

theorem foldl_convStep_absence (co : ConvOracle) (today : String) (i : Nat) :
    ∀ (l : List Job) (acc : Store × List Event),
      (∀ y ∈ l, y.job_id ≠ i) → (∀ z ∈ acc.1, z.job_id ≠ i) →
      ∀ z ∈ (l.foldl (convStep co today) acc).1, z.job_id ≠ i
  | [], _, _, hacc => hacc
  | y :: l, acc, hl, hacc => by
      apply foldl_convStep_absence co today i l _
        (fun z hz => hl z (List.mem_cons_of_mem _ hz))
      intro z hz
      rcases convertOne_mem_elim hz with h' | h'
      · exact hacc z h'
      · rw [h']
        exact hl y (List.mem_cons_self _ _)

theorem foldl_convStep_result (co : ConvOracle) (today : String) (j : Job)
    (hsucc : j.download_only = true ∨ 0 < co.matchingFiles j) :
    ∀ (l : List Job) (acc : Store × List Event), j ∈ l →
      (l.map Job.job_id).Nodup →
      (((today == j.added) = true →
        ∃ x ∈ (l.foldl (convStep co today) acc).1,
          x.job_id = j.job_id ∧ x.status = JobStatus.completed) ∧
      ((today == j.added) = false →
        ∀ x ∈ (l.foldl (convStep co today) acc).1, x.job_id ≠ j.job_id))
  | [], _, hj, _ => absurd hj (List.not_mem_nil _)
  | y :: l, acc, hj, hnd => by
      rcases List.mem_cons.mp hj with rfl | hj'
      · have hids : ∀ z ∈ l, z.job_id ≠ j.job_id := by
          intro z hz h
          have hmem : j.job_id ∈ l.map Job.job_id :=
            List.mem_map.mpr ⟨z, hz, h⟩
          exact (List.nodup_cons.mp (by simpa using hnd)).1 hmem
        constructor
        · intro hadded
          obtain ⟨x, hx, hxid, hxst⟩ :=
            @convertOne_result_present co today acc.1 j hsucc hadded
          refine ⟨x, ?_, hxid, hxst⟩
          rw [List.foldl_cons]
          exact foldl_convStep_preserves_other co today x l _
            (fun z hz h => hids z hz (hxid ▸ h)) hx
        · intro hadded
          rw [List.foldl_cons]
          apply foldl_convStep_absence co today j.job_id l _ hids
          intro z hz
          exact convertOne_result_absent hsucc hadded z hz
      · exact foldl_convStep_result co today j hsucc l _ hj'
          (List.nodup_cons.mp (by simpa using hnd)).2

/-! ## Decimal rendering and fan-out lemmas -/

theorem digitCharRev_digitChar (d : Nat) (hd : d < 10) :
    digitCharRev (Nat.digitChar d) = d := by
  interval_cases d <;> rfl

theorem map_digitCharRev_digits (n : Nat) :
    ((Nat.digits 10 n).map Nat.digitChar).map digitCharRev = Nat.digits 10 n := by
  rw [List.map_map]
  have h : (Nat.digits 10 n).map (digitCharRev ∘ Nat.digitChar)
      = (Nat.digits 10 n).map id :=
    List.map_congr_left (fun d hd =>
      digitCharRev_digitChar d (Nat.digits_lt_base (by norm_num) hd))
  simpa using h

theorem natToDec_pos_ne_zero_str {n : Nat} (hn : n ≠ 0) :
    (((Nat.digits 10 n).map Nat.digitChar).reverse).asString ≠ "0" := by
  intro h
  have h0 : (['0'] : List Char).asString = "0" := rfl
  have hl : ((Nat.digits 10 n).map Nat.digitChar).reverse = ['0'] := by
    apply List.asString_inj.mp
    rw [h0]
    exact h
  have hmap : (Nat.digits 10 n).map Nat.digitChar = ['0'] := by
    have := congrArg List.reverse hl
    simpa using this
  rcases hds : Nat.digits 10 n with _ | ⟨d, tail⟩
  · rw [hds] at hmap
    simp at hmap
  · rw [hds] at hmap
    simp only [List.map_cons] at hmap
    have htail : tail = [] := by
      have hlen := congrArg List.length hmap
      simpa using hlen
    subst htail
    have hd10 : d < 10 :=
      Nat.digits_lt_base (by norm_num)
        (by rw [hds]; exact List.mem_singleton_self d)
    have hdchar : Nat.digitChar d = '0' := by
      simpa using hmap
    have hd0 : d = 0 := by
      have hrt := digitCharRev_digitChar d hd10
      rw [hdchar] at hrt
      simpa [digitCharRev] using hrt.symm
    have hofd := Nat.ofDigits_digits 10 n
    rw [hds, hd0] at hofd
    simp [Nat.ofDigits] at hofd
    exact hn hofd.symm

theorem natToDec_injective : Function.Injective natToDec := by
  intro m n h
  unfold natToDec at h
  by_cases hm : m = 0 <;> by_cases hn : n = 0
  · rw [hm, hn]
  · rw [if_pos hm, if_neg hn] at h
    exact absurd h.symm (natToDec_pos_ne_zero_str hn)
  · rw [if_neg hm, if_pos hn] at h
    exact absurd h (natToDec_pos_ne_zero_str hm)
  · rw [if_neg hm, if_neg hn] at h
    have hl := List.asString_inj.mp h
    have hmap := List.reverse_injective hl
    have := congrArg (List.map digitCharRev) hmap
    rw [map_digitCharRev_digits, map_digitCharRev_digits] at this
    exact Nat.digits.injective 10 this

theorem decorate_inj (cfn : Option String) {k1 k2 : Nat}
    (h : decorate cfn k1 = decorate cfn k2) : k1 = k2 := by
  unfold decorate at h
  have hd := congrArg String.data h
  simp only [String.data_append] at hd
  have htl := List.append_cancel_left hd
  apply natToDec_injective
  exact String.ext htl

theorem decorate_ne_self (s : String) (k : Nat) : decorate (some s) k ≠ s := by
  intro h
  have hlen := congrArg String.length h
  simp only [decorate, pyFStr, String.length_append] at hlen
  have h1 : ("." : String).length = 1 := rfl
  rw [h1] at hlen
  omega

theorem fanOutClones_fst_length (j : Job) :
    ∀ (rs : List TorrentResult) (nid k : Nat),
      ((fanOutClones j rs nid k).1).length = rs.length
  | [], _, _ => rfl
  | _ :: rest, nid, k => by
      simp [fanOutClones, fanOutClones_fst_length j rest (nid + 1) (k + 1)]

theorem fanOutClones_snd (j : Job) :
    ∀ (rs : List TorrentResult) (nid k : Nat),
      (fanOutClones j rs nid k).2 = nid + rs.length
  | [], nid, _ => by simp [fanOutClones]
  | _ :: rest, nid, k => by
      simp [fanOutClones, fanOutClones_snd j rest (nid + 1) (k + 1)]
      omega

theorem fanOutClones_fields (j : Job) :
    ∀ (rs : List TorrentResult) (nid k : Nat),
      ∀ x ∈ (fanOutClones j rs nid k).1,
        x.status = JobStatus.adding ∧ x.keyword = j.keyword ∧
        x.query = j.query ∧ x.added = j.added ∧
        x.download_only = j.download_only
  | [], _, _ => by simp [fanOutClones]
  | r :: rest, nid, k => by
      intro x hx
      simp only [fanOutClones, List.mem_cons] at hx
      rcases hx with rfl | hx
      · exact ⟨rfl, rfl, rfl, rfl, rfl⟩
      · exact fanOutClones_fields j rest (nid + 1) (k + 1) x hx

theorem fanOutClones_map_ids (j : Job) :
    ∀ (rs : List TorrentResult) (nid k : Nat),
      ((fanOutClones j rs nid k).1).map Job.job_id
        = List.range' nid rs.length
  | [], _, _ => rfl
  | r :: rest, nid, k => by
      simp only [fanOutClones, List.map_cons,
        fanOutClones_map_ids j rest (nid + 1) (k + 1), List.length_cons]
      rw [List.range'_succ]
      rfl

theorem fanOutClones_map_cfn (j : Job) :
    ∀ (rs : List TorrentResult) (nid k : Nat),
      ((fanOutClones j rs nid k).1).map (fun x => x.converted_file_name)
        = (List.range' k rs.length).map
            (fun i => some (decorate j.converted_file_name i))
  | [], _, _ => rfl
  | r :: rest, nid, k => by
      simp only [fanOutClones, List.map_cons,
        fanOutClones_map_cfn j rest (nid + 1) (k + 1), List.length_cons]
      rw [List.range'_succ]
      rfl

theorem fanOutClones_map_magnet (j : Job) :
    ∀ (rs : List TorrentResult) (nid k : Nat),
      ((fanOutClones j rs nid k).1).map (fun x => x.magnet_link)
        = rs.map (fun r => some r.magnet_link)
  | [], _, _ => rfl
  | r :: rest, nid, k => by
      simp only [fanOutClones, List.map_cons,
        fanOutClones_map_magnet j rest (nid + 1) (k + 1)]
      rfl

theorem fanOutClones_map_title (j : Job) :
    ∀ (rs : List TorrentResult) (nid k : Nat),
      ((fanOutClones j rs nid k).1).map (fun x => x.title)
        = rs.map (fun r => some r.title)
  | [], _, _ => rfl
  | r :: rest, nid, k => by
      simp only [fanOutClones, List.map_cons,
        fanOutClones_map_title j rest (nid + 1) (k + 1)]
      rfl

theorem fanOutClones_map_hash (j : Job) :
    ∀ (rs : List TorrentResult) (nid k : Nat),
      ((fanOutClones j rs nid k).1).map (fun x => x.torrent_hash)
        = rs.map (fun r => r.hash)
  | [], _, _ => rfl
  | r :: rest, nid, k => by
      simp only [fanOutClones, List.map_cons,
        fanOutClones_map_hash j rest (nid + 1) (k + 1)]
      rfl

/-- C1: a SEARCHING job whose search returns `n = rest.length + 1` results
produces exactly `n` jobs in status ADDING: the first result is applied to the
existing job (same id), each additional result is applied to a clone with a
fresh unique id, the same keyword, query, added date and download-only flag as
the original, and a converted file name decorated with the result's 1-based
counter among the additional results; all `n` converted file names are
pairwise distinct, and result fields are applied positionally. -/
theorem fan_out_multi_result
    (j : Job) (r0 : TorrentResult) (rest : List TorrentResult) (nextId : Nat)
    (_hst : j.status = JobStatus.searching)
    (hfresh : j.job_id < nextId) :
    ((fanOutJobs j (r0 :: rest) nextId).1).length = rest.length + 1 ∧
    (∀ x ∈ (fanOutJobs j (r0 :: rest) nextId).1,
      x.status = JobStatus.adding) ∧
    ((fanOutJobs j (r0 :: rest) nextId).1).head? = some (applyResult r0 j) ∧
    (applyResult r0 j).job_id = j.job_id ∧
    (∀ x ∈ (fanOutJobs j (r0 :: rest) nextId).1,
      x.keyword = j.keyword ∧ x.query = j.query ∧ x.added = j.added ∧
      x.download_only = j.download_only) ∧
    ((fanOutJobs j (r0 :: rest) nextId).1).map Job.job_id
        = j.job_id :: List.range' nextId rest.length ∧
    (((fanOutJobs j (r0 :: rest) nextId).1).map Job.job_id).Nodup ∧
    ((fanOutJobs j (r0 :: rest) nextId).1).map (fun x => x.converted_file_name)
        = j.converted_file_name
            :: (List.range' 1 rest.length).map
                (fun i => some (decorate j.converted_file_name i)) ∧
    (((fanOutJobs j (r0 :: rest) nextId).1).map
        (fun x => x.converted_file_name)).Nodup ∧
    ((fanOutJobs j (r0 :: rest) nextId).1).map (fun x => x.magnet_link)
        = (r0 :: rest).map (fun r => some r.magnet_link) ∧
    ((fanOutJobs j (r0 :: rest) nextId).1).map (fun x => x.title)
        = (r0 :: rest).map (fun r => some r.title) ∧
    ((fanOutJobs j (r0 :: rest) nextId).1).map (fun x => x.torrent_hash)
        = (r0 :: rest).map (fun r => r.hash) := by
  have hout : (fanOutJobs j (r0 :: rest) nextId).1
      = applyResult r0 j
          :: (fanOutClones (applyResult r0 j) rest nextId 1).1 := rfl
  have hids : ((fanOutJobs j (r0 :: rest) nextId).1).map Job.job_id
      = j.job_id :: List.range' nextId rest.length := by
    rw [hout, List.map_cons, fanOutClones_map_ids]
    rfl
  have hcfn : ((fanOutJobs j (r0 :: rest) nextId).1).map
        (fun x => x.converted_file_name)
      = j.converted_file_name
          :: (List.range' 1 rest.length).map
              (fun i => some (decorate j.converted_file_name i)) := by
    rw [hout, List.map_cons, fanOutClones_map_cfn]
    rfl
  refine ⟨?_, ?_, rfl, rfl, ?_, hids, ?_, hcfn, ?_, ?_, ?_, ?_⟩
  · rw [hout]
    simp [fanOutClones_fst_length]
  · intro x hx
    rw [hout] at hx
    rcases List.mem_cons.mp hx with rfl | hx
    · rfl
    · exact (fanOutClones_fields _ rest nextId 1 x hx).1
  · intro x hx
    rw [hout] at hx
    rcases List.mem_cons.mp hx with rfl | hx
    · exact ⟨rfl, rfl, rfl, rfl⟩
    · obtain ⟨_, hk, hq, ha, hd⟩ := fanOutClones_fields _ rest nextId 1 x hx
      exact ⟨hk, hq, ha, hd⟩
  · rw [hids]
    refine List.nodup_cons.mpr ⟨?_, List.nodup_range' _ _⟩
    intro hmem
    have := (List.mem_range'_1.mp hmem).1
    omega
  · rw [hcfn]
    refine List.nodup_cons.mpr ⟨?_, ?_⟩
    · intro hmem
      rcases List.mem_map.mp hmem with ⟨i, _, heq⟩
      cases hc : j.converted_file_name with
      | none =>
          rw [hc] at heq
          simp at heq
      | some s =>
          rw [hc] at heq
          have hds : decorate (some s) i = s := by
            simpa using heq
          exact decorate_ne_self s i hds
    · apply List.Nodup.map_on
      · intro i1 _ i2 _ heq
        have hd : decorate j.converted_file_name i1
            = decorate j.converted_file_name i2 := by
          simpa using heq
        exact decorate_inj _ hd
      · exact List.nodup_range' _ _
  · rw [hout, List.map_cons, fanOutClones_map_magnet]
    rfl
  · rw [hout, List.map_cons, fanOutClones_map_title]
    rfl
  · rw [hout, List.map_cons, fanOutClones_map_hash]
    rfl

theorem fan_out_multi_result_witness :
    let j : Job := { job_id := 0, status := JobStatus.searching,
                     added := "2026-10-12", keyword := some "show",
                     query := some "show s01e02",
                     converted_file_name := some "Show - s01e02 - Pilot" }
    let r0 : TorrentResult := { title := "Show.S01E02.A",
                                magnet_link := "magnet:a", hash := some "aaa" }
    let r1 : TorrentResult := { title := "Show.S01E02.B",
                                magnet_link := "magnet:b", hash := some "bbb" }
    let r2 : TorrentResult := { title := "Show.S01E02.C",
                                magnet_link := "magnet:c", hash := some "ccc" }
    j.status = JobStatus.searching ∧ j.job_id < 1 ∧
    ((fanOutJobs j (r0 :: [r1, r2]) 1).1).length = 3 ∧
    (((fanOutJobs j (r0 :: [r1, r2]) 1).1).map Job.job_id).Nodup :=
  ⟨rfl, by decide,
    (fan_out_multi_result _ _ [_, _] 1 rfl (by decide)).1,
    (fan_out_multi_result _ _ [_, _] 1 rfl (by decide)).2.2.2.2.2.2.1⟩

theorem append_ordering {A B : List Event}
    (hA : ∀ e ∈ A, e.isWork = false)
    (hB : ∀ e ∈ B, e.isConvertingSave = false) :
    ∀ (i1 i2 : Nat) (h1 : i1 < (A ++ B).length) (h2 : i2 < (A ++ B).length),
      ((A ++ B).get ⟨i1, h1⟩).isConvertingSave = true →
      ((A ++ B).get ⟨i2, h2⟩).isWork = true → i1 < i2 := by
  intro i1 i2 h1 h2 e1 e2
  have hi1 : i1 < A.length := by
    by_contra hge
    push_neg at hge
    have hidx : i1 - A.length < B.length := by
      simp only [List.length_append] at h1
      omega
    have heq : (A ++ B).get ⟨i1, h1⟩ = B.get ⟨i1 - A.length, hidx⟩ :=
      List.getElem_append_right hge
    rw [heq] at e1
    have := hB _ (List.get_mem B _ hidx)
    simp_all
  have hi2 : A.length ≤ i2 := by
    by_contra hlt
    push_neg at hlt
    have heq : (A ++ B).get ⟨i2, h2⟩ = A.get ⟨i2, hlt⟩ :=
      List.getElem_append_left hlt
    rw [heq] at e2
    have := hA _ (List.get_mem A _ hlt)
    simp_all
  omega

/-- C9: `perform_conversions` first persists the CONVERTING checkpoint of every
PENDING job before any copy or conversion work starts on any of them; on a
job's successful copy (download-only) or conversion (at least one matching
media file), the job is saved as COMPLETED, and its record is deleted
immediately if and only if its added date is not the current date. -/
theorem perform_conversions_checkpoints_then_completes
    (co : ConvOracle) (today : String) (st : Store)
    (hnd : (st.map Job.job_id).Nodup) :
    (∀ j ∈ byStatus st JobStatus.pending,
      Event.save j.job_id JobStatus.converting
        ∈ (perform_conversions co today st).2) ∧
    (∀ (i1 i2 : Nat) (h1 : i1 < (perform_conversions co today st).2.length)
      (h2 : i2 < (perform_conversions co today st).2.length),
      ((perform_conversions co today st).2.get ⟨i1, h1⟩).isConvertingSave = true →
      ((perform_conversions co today st).2.get ⟨i2, h2⟩).isWork = true →
      i1 < i2) ∧
    (∀ j ∈ byStatus st JobStatus.pending,
      j.download_only = true ∨ 0 < co.matchingFiles j →
      Event.save j.job_id JobStatus.completed
          ∈ (perform_conversions co today st).2 ∧
      (Event.del j.job_id ∈ (perform_conversions co today st).2 ↔
        (today == j.added) = false) ∧
      ((today == j.added) = true →
        ∃ x ∈ (perform_conversions co today st).1,
          x.job_id = j.job_id ∧ x.status = JobStatus.completed) ∧
      ((today == j.added) = false →
        ∀ x ∈ (perform_conversions co today st).1, x.job_id ≠ j.job_id)) := by
  have hndp : ((byStatus st JobStatus.pending).map Job.job_id).Nodup :=
    ((List.filter_sublist st).map Job.job_id).nodup hnd
  refine ⟨?_, ?_, ?_⟩
  · intro j hj
    exact List.mem_append_left _ (List.mem_map_of_mem _ hj)
  · have hA : ∀ e ∈ (byStatus st JobStatus.pending).map
        (fun j => Event.save j.job_id JobStatus.converting), e.isWork = false := by
      intro e he
      rcases List.mem_map.mp he with ⟨y, _, rfl⟩
      rfl
    have hB : ∀ e ∈ ((byStatus st JobStatus.pending).foldl (convStep co today)
        ((byStatus st JobStatus.pending).foldl
          (fun acc j => saveJob acc { j with status := JobStatus.converting }) st,
         [])).2, e.isConvertingSave = false := by
      apply foldl_convStep_events co today (fun e => e.isConvertingSave = false)
      · intro y _ st' e he
        rcases convertOne_events_shape e he with h | h | h <;> subst h <;> rfl
      · intro e he
        simp at he
    exact append_ordering hA hB
  · intro j hj hsucc
    refine ⟨?_, ⟨?_, ?_⟩, ?_, ?_⟩
    · exact List.mem_append_right _
        (foldl_convStep_mem co today _ _ _ j hj
          (fun st' => convertOne_mem_save hsucc))
    · intro hdel
      by_contra hne
      have hadded : (today == j.added) = true := by
        simpa using hne
      have hstep : ∀ y ∈ byStatus st JobStatus.pending, ∀ st' : Store,
          ∀ e ∈ (convertOne co today st' y).2, e ≠ Event.del j.job_id := by
        intro y hy st' e he heq
        subst heq
        rcases convertOne_events_shape _ he with h' | h' | h'
        · simp at h'
        · simp at h'
        · have hid : j.job_id = y.job_id := by
            injection h'
          have hyj : y = j :=
            List.inj_on_of_nodup_map hndp hy hj hid.symm
          subst hyj
          exact convertOne_no_del hadded he
      rcases List.mem_append.mp hdel with hdA | hdB
      · rcases List.mem_map.mp hdA with ⟨y, _, heq⟩
        simp at heq
      · exact foldl_convStep_events co today
          (fun e => e ≠ Event.del j.job_id) _ _ hstep
          (by intro e he; simp at he) _ hdB rfl
    · intro hadded
      exact List.mem_append_right _
        (foldl_convStep_mem co today _ _ _ j hj
          (fun st' => convertOne_mem_del hsucc hadded))
    · exact (foldl_convStep_result co today j hsucc _ _ hj hndp).1
    · exact (foldl_convStep_result co today j hsucc _ _ hj hndp).2

theorem perform_conversions_checkpoints_then_completes_witness :
    let jp : Job := { job_id := 0, status := JobStatus.pending,
                      added := "2026-10-12", download_only := true,
                      name := some "Show.s01e02", query := some "show s01e02" }
    let co : ConvOracle := { matchingFiles := fun _ => 0 }
    (([jp] : Store).map Job.job_id).Nodup ∧
    jp ∈ byStatus [jp] JobStatus.pending ∧
    (jp.download_only = true ∨ 0 < co.matchingFiles jp) ∧
    Event.save jp.job_id JobStatus.completed
      ∈ (perform_conversions co "2026-10-12" [jp]).2 :=
  ⟨by decide, by decide, Or.inl rfl,
    ((perform_conversions_checkpoints_then_completes _ "2026-10-12" _
        (by decide)).2.2 _ (by decide) (Or.inl rfl)).1⟩

end InfieldFly

namespace InfieldFly

/-- C10: the administrative `jobs update` command with status `"adding"` and a
magnet URL reaches `job_queue.set_job_search_result`, a method no `JobQueue`
class defines, so it raises `AttributeError` before updating the job: the
store is returned unchanged. -/
theorem update_job_adding_magnet_raises
    (st : Store) (job_id : Nat) (magnet : Option String) (j : Job)
    (hfound : lookupJob st job_id = some j)
    (hmag : magnet.isSome = true) :
    update_job st job_id "adding" magnet
      = (UpdateOutcome.raised (PyError.attributeError "set_job_search_result"),
         st) := by
  have hlower : pyLower "adding" == "adding" := by decide
  have hvals : "adding" ∈ jobStatusValues := by decide
  have htp : "create_torrent_result" ∈ torrentDataProviderMethods := by decide
  have hjq : "set_job_search_result" ∉ jobQueueMethods := by decide
  simp [update_job, hfound, hmag, hlower, hvals, htp, hjq]

/-- C8 counterexample: two ADDING jobs; the daemon's metadata prefetch fails
for the first job and would succeed for the second, yet `add_torrents` returns
with the store unchanged: the second job is never submitted and stays in
ADDING, so one job's failure does prevent the remaining jobs of the batch. -/
theorem add_torrents_failure_blocks_rest :
    let j1 : Job := { job_id := 1, status := JobStatus.adding,
                      added := "2026-10-12", magnet_link := some "magnet:1" }
    let j2 : Job := { job_id := 2, status := JobStatus.adding,
                      added := "2026-10-12", magnet_link := some "magnet:2" }
    let d : DelugeOracle :=
      { prefetch := fun m =>
          if m = some "magnet:2" then (some "hash2", some (some "name2"))
          else (none, none),
        torrent_status := fun _ =>
          { name := "name2", download_location := "/dl", is_finished := false } }
    add_torrents d [j1, j2] = Except.ok [j1, j2] ∧
    (d.prefetch j2.magnet_link).1 = some "hash2" ∧
    (d.prefetch j2.magnet_link).2 = some (some "name2") ∧
    j2.status = JobStatus.adding := by
  exact ⟨rfl, rfl, rfl, rfl⟩

/-- C8 amended: in `add_torrents`, a job whose magnet-metadata prefetch returns
no id is left in ADDING and `add_torrents` returns immediately with the store
unchanged, so the remaining ADDING jobs of the batch are not submitted either
and also remain in ADDING (the batch is abandoned, not isolated to the failing
job). -/
theorem add_torrents_aborts_batch_on_failure
    (d : DelugeOracle) (st : Store) (j : Job) (rest : List Job)
    (hfail : (d.prefetch j.magnet_link).1 = none) :
    add_torrents_loop d st (j :: rest) = Except.ok st ∧
    (byStatus st .adding = j :: rest → add_torrents d st = Except.ok st) := by
  have hloop : add_torrents_loop d st (j :: rest) = Except.ok st := by
    rcases hp : d.prefetch j.magnet_link with ⟨a, b⟩
    rw [hp] at hfail
    simp only at hfail
    subst hfail
    simp [add_torrents_loop, hp]
  refine ⟨hloop, fun hadding => ?_⟩
  rw [add_torrents, hadding]
  exact hloop

theorem add_torrents_aborts_batch_on_failure_witness :
    let j : Job := { job_id := 4, status := JobStatus.adding,
                     added := "2026-10-12", magnet_link := some "magnet:x" }
    let d : DelugeOracle :=
      { prefetch := fun _ => (none, none),
        torrent_status := fun _ =>
          { name := "n", download_location := "/dl", is_finished := false } }
    (d.prefetch j.magnet_link).1 = none ∧
    add_torrents_loop d [j] (j :: []) = Except.ok [j] :=
  ⟨rfl, (add_torrents_aborts_batch_on_failure _ _ _ _ rfl).1⟩

theorem update_job_adding_magnet_raises_witness :
    let j : Job := { job_id := 3, status := JobStatus.searching,
                     added := "2026-10-12" }
    lookupJob [j] 3 = some j ∧
    (some "magnet:?xt=urn:btih:ff").isSome = true ∧
    update_job [j] 3 "adding" (some "magnet:?xt=urn:btih:ff")
      = (UpdateOutcome.raised (PyError.attributeError "set_job_search_result"),
         [j]) :=
  ⟨rfl, rfl, update_job_adding_magnet_raises _ _ _ _ rfl rfl⟩

/-! ## Discovery and dedup lemmas -/

theorem update_ucfn_fields (env : Env) (j : Job) :
    (update_converted_file_name env j).job_id = j.job_id ∧
    (update_converted_file_name env j).status = j.status ∧
    (update_converted_file_name env j).keyword = j.keyword ∧
    (update_converted_file_name env j).query = j.query ∧
    (update_converted_file_name env j).added = j.added ∧
    (update_converted_file_name env j).download_only = j.download_only := by
  unfold update_converted_file_name
  cases env.ucfn j.keyword j.query j.converted_file_name <;>
    exact ⟨rfl, rfl, rfl, rfl, rfl, rfl⟩

theorem is_existing_job_iff (st : Store) (k q : String) :
    is_existing_job st k q = true ↔
      ∃ x ∈ st, x.keyword = some k ∧ x.query = some q := by
  simp [is_existing_job, List.any_eq_true]

theorem saveJob_absence {st : Store} {jj : Job} {i : Nat}
    (h : ∀ x ∈ st, x.job_id ≠ i) (hne : jj.job_id ≠ i) :
    ∀ x ∈ saveJob st jj, x.job_id ≠ i := by
  intro x hx
  rcases mem_saveJob_elim hx with h' | h'
  · exact h x h'
  · rw [h']
    exact hne

theorem saveJob_bound {st : Store} {jj : Job} {n : Nat}
    (h : ∀ x ∈ st, x.job_id < n) (hb : jj.job_id < n) :
    ∀ x ∈ saveJob st jj, x.job_id < n := by
  intro x hx
  rcases mem_saveJob_elim hx with h' | h'
  · exact h x h'
  · rw [h']
    exact hb

theorem foldl_saveJob_absence :
    ∀ (l : List Job) (st : Store) (i : Nat),
      (∀ y ∈ l, y.job_id ≠ i) → (∀ x ∈ st, x.job_id ≠ i) →
      ∀ x ∈ l.foldl saveJob st, x.job_id ≠ i
  | [], _, _, _, hst => hst
  | y :: l, _, i, hl, hst =>
      foldl_saveJob_absence l _ i (fun z hz => hl z (List.mem_cons_of_mem _ hz))
        (saveJob_absence hst (hl y (List.mem_cons_self _ _)))

theorem foldl_saveJob_mem_other :
    ∀ (l : List Job) (st : Store) (j : Job),
      (∀ y ∈ l, y.job_id ≠ j.job_id) → j ∈ st → j ∈ l.foldl saveJob st
  | [], _, _, _, hj => hj
  | y :: l, _, j, hl, hj =>
      foldl_saveJob_mem_other l _ j
        (fun z hz => hl z (List.mem_cons_of_mem _ hz))
        (mem_saveJob_of_ne hj
          (fun h => hl y (List.mem_cons_self _ _) h.symm))

theorem foldl_saveJob_bound :
    ∀ (l : List Job) (st : Store) (n : Nat),
      (∀ y ∈ l, y.job_id < n) → (∀ x ∈ st, x.job_id < n) →
      ∀ x ∈ l.foldl saveJob st, x.job_id < n
  | [], _, _, _, hst => hst
  | y :: l, _, n, hl, hst =>
      foldl_saveJob_bound l _ n (fun z hz => hl z (List.mem_cons_of_mem _ hz))
        (saveJob_bound hst (hl y (List.mem_cons_self _ _)))

theorem foldl_saveJob_nodup :
    ∀ (l : List Job) (st : Store),
      (st.map Job.job_id).Nodup → ((l.foldl saveJob st).map Job.job_id).Nodup
  | [], _, h => h
  | _ :: l, _, h => foldl_saveJob_nodup l _ (nodup_ids_saveJob h)

theorem create_job_fields (env : Env) (s : QState) (k q : String) (dl : Bool) :
    (create_job env s k q dl).1.job_id = s.nextId ∧
    (create_job env s k q dl).1.keyword = some k ∧
    (create_job env s k q dl).1.query = some q ∧
    (create_job env s k q dl).2
      = { store := saveJob s.store (create_job env s k q dl).1,
          nextId := s.nextId + 1 } := by
  refine ⟨?_, ?_, ?_, rfl⟩
  · exact (update_ucfn_fields env _).1
  · exact (update_ucfn_fields env _).2.2.1
  · exact (update_ucfn_fields env _).2.2.2.1

theorem processCandidate_of_existing {env : Env} {s : QState} {c : Candidate}
    (h : is_existing_job s.store c.keyword c.search_string = true) :
    processCandidate env s c = s := by
  unfold processCandidate
  rw [if_pos h]

theorem processCandidate_cases (env : Env) (s : QState) (c : Candidate) :
    (is_existing_job s.store c.keyword c.search_string = true ∧
      processCandidate env s c = s) ∨
    ∃ jobS : Job,
      jobS.job_id = s.nextId ∧ jobS.keyword = some c.keyword ∧
      jobS.query = some c.search_string ∧
      processCandidate env s c
        = { store := saveJob
              (saveJob s.store
                (create_job env s c.keyword c.search_string false).1)
              jobS,
            nextId := s.nextId + 1 } := by
  unfold processCandidate
  split
  · rename_i h
    exact Or.inl ⟨h, rfl⟩
  · right
    refine ⟨if c.is_download_only then
              { (create_job env s c.keyword c.search_string false).1 with
                  status := JobStatus.searching,
                  download_only := c.is_download_only }
            else
              { (create_job env s c.keyword c.search_string false).1 with
                  status := JobStatus.searching,
                  download_only := c.is_download_only,
                  converted_file_name := some c.plex_title_sub },
           ?_, ?_, ?_, rfl⟩
    · split <;> exact (create_job_fields env s c.keyword c.search_string false).1
    · split <;> exact (create_job_fields env s c.keyword c.search_string false).2.1
    · split <;>
        exact (create_job_fields env s c.keyword c.search_string false).2.2.1

theorem processCandidate_pair_mono (env : Env) (s : QState) (c : Candidate)
    {k q : String} (hInv : ∀ x ∈ s.store, x.job_id < s.nextId)
    (h : is_existing_job s.store k q = true) :
    is_existing_job (processCandidate env s c).store k q = true := by
  rcases processCandidate_cases env s c with ⟨_, heq⟩ | ⟨jobS, hid, _, _, heq⟩ <;>
    rw [heq]
  · exact h
  · rcases (is_existing_job_iff s.store k q).mp h with ⟨x, hx, hxk, hxq⟩
    apply (is_existing_job_iff _ k q).mpr
    have hx1 : x.job_id
        ≠ (create_job env s c.keyword c.search_string false).1.job_id := by
      rw [(create_job_fields env s c.keyword c.search_string false).1]
      exact Nat.ne_of_lt (hInv x hx)
    have hx2 : x.job_id ≠ jobS.job_id := by
      rw [hid]
      exact Nat.ne_of_lt (hInv x hx)
    exact ⟨x, mem_saveJob_of_ne (mem_saveJob_of_ne hx hx1) hx2, hxk, hxq⟩

theorem processCandidate_establishes (env : Env) (s : QState) (c : Candidate) :
    is_existing_job (processCandidate env s c).store c.keyword c.search_string
      = true := by
  rcases processCandidate_cases env s c with ⟨hex, heq⟩ | ⟨jobS, _, hk, hq, heq⟩ <;>
    rw [heq]
  · exact hex
  · exact (is_existing_job_iff _ _ _).mpr ⟨jobS, self_mem_saveJob _ _, hk, hq⟩

theorem processCandidate_reach {env : Env} {s : QState} {c : Candidate}
    (h : ReachState s) : ReachState (processCandidate env s c) := by
  rcases processCandidate_cases env s c with ⟨_, heq⟩ | ⟨jobS, hid, _, _, heq⟩ <;>
    rw [heq]
  · exact h
  · constructor
    · apply saveJob_bound
      · apply saveJob_bound
        · exact fun x hx => Nat.lt_succ_of_lt (h.1 x hx)
        · rw [(create_job_fields env s c.keyword c.search_string false).1]
          exact Nat.lt_succ_self _
      · rw [hid]
        exact Nat.lt_succ_self _
    · exact nodup_ids_saveJob (nodup_ids_saveJob h.2)

theorem processCandidate_mem {env : Env} {s : QState} {c : Candidate} {j : Job}
    (hj : j ∈ s.store) (hb : j.job_id < s.nextId) :
    j ∈ (processCandidate env s c).store := by
  rcases processCandidate_cases env s c with ⟨_, heq⟩ | ⟨jobS, hid, _, _, heq⟩ <;>
    rw [heq]
  · exact hj
  · apply mem_saveJob_of_ne
    · apply mem_saveJob_of_ne hj
      rw [(create_job_fields env s c.keyword c.search_string false).1]
      exact Nat.ne_of_lt hb
    · rw [hid]
      exact Nat.ne_of_lt hb

theorem processCandidate_absence {env : Env} {s : QState} {c : Candidate}
    {i : Nat} (h : ∀ x ∈ s.store, x.job_id ≠ i) (hi : i < s.nextId) :
    ∀ x ∈ (processCandidate env s c).store, x.job_id ≠ i := by
  rcases processCandidate_cases env s c with ⟨_, heq⟩ | ⟨jobS, hid, _, _, heq⟩ <;>
    rw [heq]
  · exact h
  · apply saveJob_absence
    · apply saveJob_absence h
      rw [(create_job_fields env s c.keyword c.search_string false).1]
      exact (Nat.ne_of_lt hi).symm
    · rw [hid]
      exact (Nat.ne_of_lt hi).symm

theorem processCandidate_nextId_le (env : Env) (s : QState) (c : Candidate) :
    s.nextId ≤ (processCandidate env s c).nextId := by
  rcases processCandidate_cases env s c with ⟨_, heq⟩ | ⟨jobS, _, _, _, heq⟩ <;>
    rw [heq]
  exact Nat.le_succ _

theorem foldl_processCandidate_reach (env : Env) :
    ∀ (l : List Candidate) (s : QState), ReachState s →
      ReachState (l.foldl (processCandidate env) s)
  | [], _, h => h
  | _ :: l, _, h =>
      foldl_processCandidate_reach env l _ (processCandidate_reach h)

theorem foldl_processCandidate_pair_mono (env : Env) {k q : String} :
    ∀ (l : List Candidate) (s : QState), ReachState s →
      is_existing_job s.store k q = true →
      is_existing_job (l.foldl (processCandidate env) s).store k q = true
  | [], _, _, h => h
  | c :: l, s, hre, h =>
      foldl_processCandidate_pair_mono env l _ (processCandidate_reach hre)
        (processCandidate_pair_mono env s c hre.1 h)

theorem foldl_processCandidate_establishes (env : Env) :
    ∀ (l : List Candidate) (s : QState), ReachState s →
      ∀ c ∈ l,
        is_existing_job (l.foldl (processCandidate env) s).store
          c.keyword c.search_string = true := by
  intro l
  induction l with
  | nil =>
      intro _ _ c hc
      exact absurd hc (List.not_mem_nil _)
  | cons y l ih =>
      intro s hre c hc
      rcases List.mem_cons.mp hc with rfl | hc'
      · exact foldl_processCandidate_pair_mono env l _
          (processCandidate_reach hre) (processCandidate_establishes env s c)
      · exact ih _ (processCandidate_reach hre) c hc'

theorem foldl_processCandidate_skip (env : Env) :
    ∀ (l : List Candidate) (s : QState),
      (∀ c ∈ l, is_existing_job s.store c.keyword c.search_string = true) →
      l.foldl (processCandidate env) s = s
  | [], _, _ => rfl
  | c :: l, s, h => by
      have hc := @processCandidate_of_existing env s c
        (h c (List.mem_cons_self _ _))
      rw [List.foldl_cons, hc]
      exact foldl_processCandidate_skip env l s
        (fun d hd => h d (List.mem_cons_of_mem _ hd))

theorem foldl_processCandidate_absence (env : Env) :
    ∀ (l : List Candidate) (s : QState) (i : Nat),
      (∀ x ∈ s.store, x.job_id ≠ i) → i < s.nextId →
      (∀ x ∈ (l.foldl (processCandidate env) s).store, x.job_id ≠ i) ∧
        i < (l.foldl (processCandidate env) s).nextId
  | [], _, _, h, hi => ⟨h, hi⟩
  | c :: l, s, i, h, hi =>
      foldl_processCandidate_absence env l _ i
        (processCandidate_absence h hi)
        (Nat.lt_of_lt_of_le hi (processCandidate_nextId_le env s c))

theorem foldl_processCandidate_mem (env : Env) :
    ∀ (l : List Candidate) (s : QState) (j : Job),
      j ∈ s.store → j.job_id < s.nextId →
      j ∈ (l.foldl (processCandidate env) s).store ∧
        j.job_id < (l.foldl (processCandidate env) s).nextId
  | [], _, _, hj, hb => ⟨hj, hb⟩
  | c :: l, s, j, hj, hb =>
      foldl_processCandidate_mem env l _ j
        (processCandidate_mem hj hb)
        (Nat.lt_of_lt_of_le hb (processCandidate_nextId_le env s c))

/-! ## Pruning and search-execution lemmas -/

theorem foldl_deleteJob_sublist :
    ∀ (l : List Job) (st : Store),
      List.Sublist (l.foldl (fun acc y => deleteJob acc y.job_id) st) st
  | [], st => List.Sublist.refl st
  | y :: l, st =>
      (foldl_deleteJob_sublist l (deleteJob st y.job_id)).trans
        (List.filter_sublist st)

theorem foldl_deleteJob_mem :
    ∀ (l : List Job) (st : Store) (j : Job),
      (∀ y ∈ l, y.job_id ≠ j.job_id) → j ∈ st →
      j ∈ l.foldl (fun acc y => deleteJob acc y.job_id) st
  | [], _, _, _, hj => hj
  | y :: l, _, j, hl, hj =>
      foldl_deleteJob_mem l _ j (fun z hz => hl z (List.mem_cons_of_mem _ hz))
        (mem_deleteJob.mpr ⟨hj, fun h => hl y (List.mem_cons_self _ _) h.symm⟩)

theorem foldl_deleteJob_absence :
    ∀ (l : List Job) (st : Store) (i : Nat),
      (∃ y ∈ l, y.job_id = i) →
      ∀ x ∈ l.foldl (fun acc y => deleteJob acc y.job_id) st, x.job_id ≠ i
  | [], _, _, h => absurd h (by simp)
  | y :: l, st, i, h => by
      intro x hx
      by_cases hy : y.job_id = i
      · have hsub := foldl_deleteJob_sublist l (deleteJob st y.job_id)
        have hxne := (mem_deleteJob.mp (hsub.subset hx)).2
        rw [hy] at hxne
        exact hxne
      · rcases h with ⟨z, hz, hzi⟩
        rcases List.mem_cons.mp hz with rfl | hz'
        · exact absurd hzi hy
        · exact foldl_deleteJob_absence l _ i ⟨z, hz', hzi⟩ x hx

theorem pruneCompleted_sublist (refdate : String) (st : Store) :
    List.Sublist (pruneCompleted refdate st) st :=
  foldl_deleteJob_sublist _ st

theorem pruneCompleted_kills {refdate : String} {st : Store} {j : Job}
    (hj : j ∈ st) (hst : j.status = JobStatus.completed)
    (hadd : j.added ≠ refdate) :
    ∀ x ∈ pruneCompleted refdate st, x.job_id ≠ j.job_id := by
  apply foldl_deleteJob_absence
  refine ⟨j, ?_, rfl⟩
  simp [byStatus, List.mem_filter, hj, hst, hadd]

theorem pruneCompleted_retains {refdate : String} {st : Store} {j : Job}
    (hnd : (st.map Job.job_id).Nodup) (hj : j ∈ st)
    (_hst : j.status = JobStatus.completed) (hadd : j.added = refdate) :
    j ∈ pruneCompleted refdate st := by
  apply foldl_deleteJob_mem _ _ _ _ hj
  intro y hy h
  have hy' : y ∈ st ∧ y.added ≠ refdate := by
    simp only [byStatus, List.mem_filter, bne_iff_ne] at hy
    exact ⟨hy.1.1, hy.2⟩
  have hyj : y = j := List.inj_on_of_nodup_map hnd hy'.1 hj h
  rw [hyj] at hy'
  exact hy'.2 hadd

theorem promoteWaiting_eq (env : Env) (st : Store) :
    promoteWaiting env st
      = ((byStatus st .waiting).map
          (fun j =>
            update_converted_file_name env { j with status := JobStatus.searching })).foldl
          saveJob st := by
  unfold promoteWaiting promoteStep
  rw [List.foldl_map]

theorem promoteWaiting_absence {env : Env} {st : Store} {i : Nat}
    (h : ∀ x ∈ st, x.job_id ≠ i) :
    ∀ x ∈ promoteWaiting env st, x.job_id ≠ i := by
  rw [promoteWaiting_eq]
  apply foldl_saveJob_absence _ _ _ ?_ h
  intro y hy
  rcases List.mem_map.mp hy with ⟨w, hw, rfl⟩
  rw [(update_ucfn_fields env _).1]
  exact h w (mem_byStatus.mp hw).1

theorem promoteWaiting_bound {env : Env} {st : Store} {n : Nat}
    (h : ∀ x ∈ st, x.job_id < n) :
    ∀ x ∈ promoteWaiting env st, x.job_id < n := by
  rw [promoteWaiting_eq]
  apply foldl_saveJob_bound _ _ _ ?_ h
  intro y hy
  rcases List.mem_map.mp hy with ⟨w, hw, rfl⟩
  rw [(update_ucfn_fields env _).1]
  exact h w (mem_byStatus.mp hw).1

theorem promoteWaiting_nodup {env : Env} {st : Store}
    (h : (st.map Job.job_id).Nodup) :
    ((promoteWaiting env st).map Job.job_id).Nodup := by
  rw [promoteWaiting_eq]
  exact foldl_saveJob_nodup _ _ h

theorem promoteWaiting_mem {env : Env} {st : Store} {j : Job}
    (hnd : (st.map Job.job_id).Nodup) (hj : j ∈ st)
    (hst : j.status = JobStatus.completed) :
    j ∈ promoteWaiting env st := by
  rw [promoteWaiting_eq]
  apply foldl_saveJob_mem_other _ _ _ ?_ hj
  intro y hy
  rcases List.mem_map.mp hy with ⟨w, hw, rfl⟩
  rw [(update_ucfn_fields env _).1]
  intro h
  have hwmem := mem_byStatus.mp hw
  have hwj : w = j := List.inj_on_of_nodup_map hnd hwmem.1 hj h
  rw [hwj, hst] at hwmem
  exact absurd hwmem.2 (by decide)

theorem fanOutJobs_ids (j : Job) (r0 : TorrentResult)
    (rest : List TorrentResult) (nid : Nat) :
    ((fanOutJobs j (r0 :: rest) nid).1).map Job.job_id
      = j.job_id :: List.range' nid rest.length := by
  have hout : (fanOutJobs j (r0 :: rest) nid).1
      = applyResult r0 j :: (fanOutClones (applyResult r0 j) rest nid 1).1 := rfl
  rw [hout, List.map_cons, fanOutClones_map_ids]
  rfl

theorem fanOutJobs_snd (j : Job) (r0 : TorrentResult)
    (rest : List TorrentResult) (nid : Nat) :
    (fanOutJobs j (r0 :: rest) nid).2 = nid + rest.length := by
  have hout : (fanOutJobs j (r0 :: rest) nid).2
      = (fanOutClones (applyResult r0 j) rest nid 1).2 := rfl
  rw [hout, fanOutClones_snd]

theorem searchOneJob_nextId_le (s : QState) (w : Job)
    (rs : List TorrentResult) : s.nextId ≤ (searchOneJob s w rs).nextId := by
  cases rs with
  | nil => exact Nat.le_refl _
  | cons r rest =>
      have h : (searchOneJob s w (r :: rest)).nextId
          = (fanOutJobs w (r :: rest) s.nextId).2 := rfl
      rw [h, fanOutJobs_snd]
      exact Nat.le_add_right _ _

theorem searchOneJob_absence {s : QState} {w : Job} {rs : List TorrentResult}
    {i : Nat} (h : ∀ x ∈ s.store, x.job_id ≠ i) (hw : w.job_id ≠ i)
    (hi : i < s.nextId) :
    ∀ x ∈ (searchOneJob s w rs).store, x.job_id ≠ i := by
  cases rs with
  | nil => exact saveJob_absence h hw
  | cons r rest =>
      apply foldl_saveJob_absence _ _ _ ?_ h
      intro y hy
      have hyid : y.job_id
          ∈ ((fanOutJobs w (r :: rest) s.nextId).1).map Job.job_id :=
        List.mem_map_of_mem _ hy
      rw [fanOutJobs_ids] at hyid
      rcases List.mem_cons.mp hyid with h' | h'
      · rw [h']
        exact hw
      · have := (List.mem_range'_1.mp h').1
        omega

theorem searchOneJob_mem {s : QState} {w : Job} {rs : List TorrentResult}
    {j : Job} (hj : j ∈ s.store) (hwne : w.job_id ≠ j.job_id)
    (hb : j.job_id < s.nextId) :
    j ∈ (searchOneJob s w rs).store := by
  cases rs with
  | nil => exact mem_saveJob_of_ne hj (fun h => hwne h.symm)
  | cons r rest =>
      apply foldl_saveJob_mem_other _ _ _ ?_ hj
      intro y hy
      have hyid : y.job_id
          ∈ ((fanOutJobs w (r :: rest) s.nextId).1).map Job.job_id :=
        List.mem_map_of_mem _ hy
      rw [fanOutJobs_ids] at hyid
      rcases List.mem_cons.mp hyid with h' | h'
      · rw [h']
        exact hwne
      · have := (List.mem_range'_1.mp h').1
        omega

theorem foldl_searchStep_absence (env : Env) :
    ∀ (l : List Job) (t : QState) (i : Nat),
      (∀ w ∈ l, w.job_id ≠ i) → (∀ x ∈ t.store, x.job_id ≠ i) →
      i < t.nextId →
      ∀ x ∈ (l.foldl (searchStep env) t).store, x.job_id ≠ i
  | [], _, _, _, hst, _ => hst
  | w :: l, t, i, hl, hst, hi =>
      foldl_searchStep_absence env l _ i
        (fun z hz => hl z (List.mem_cons_of_mem _ hz))
        (searchOneJob_absence hst (hl w (List.mem_cons_self _ _)) hi)
        (Nat.lt_of_lt_of_le hi (searchOneJob_nextId_le t w _))

theorem foldl_searchStep_mem (env : Env) :
    ∀ (l : List Job) (t : QState) (j : Job),
      (∀ w ∈ l, w.job_id ≠ j.job_id) → j ∈ t.store → j.job_id < t.nextId →
      j ∈ (l.foldl (searchStep env) t).store
  | [], _, _, _, hj, _ => hj
  | w :: l, t, j, hl, hj, hb =>
      foldl_searchStep_mem env l _ j
        (fun z hz => hl z (List.mem_cons_of_mem _ hz))
        (searchOneJob_mem hj (hl w (List.mem_cons_self _ _)) hb)
        (Nat.lt_of_lt_of_le hb (searchOneJob_nextId_le t w _))

/-- C3 counterexample: a cycle invoked with `--skip-search` runs the other
stages, loads and observes the stale COMPLETED job, and does not delete it —
pruning is not performed "regardless of which stage runs". -/
theorem skip_search_cycle_retains_stale_completed :
    let jStale : Job := { job_id := 0, status := JobStatus.completed,
                          added := "2026-10-11" }
    let env : Env := { today := "2026-10-12", search := fun _ => [],
                       ucfn := fun _ _ _ => none, candidates := [] }
    let d : DelugeOracle := { prefetch := fun _ => (none, none),
                              torrent_status := fun _ =>
                                { name := "n", download_location := "d",
                                  is_finished := false } }
    let co : ConvOracle := { matchingFiles := fun _ => 0 }
    let flags : SkipFlags := { skip_search := true }
    jStale.added ≠ "2026-10-12" ∧ jStale.status = JobStatus.completed ∧
    process_jobs env d co flags "2026-10-12" { store := [jStale], nextId := 1 }
      = Except.ok { store := [jStale], nextId := 1 } :=
  ⟨by decide, rfl, rfl⟩

/-- C3 amended: stale-completed pruning happens only in the search stage: when
`perform_searches` runs, every COMPLETED job whose added date differs from the
cycle's reference date is deleted (and its id never reappears in the resulting
store), while a COMPLETED job whose added date equals the reference date is
retained; a cycle that skips the search stage does not delete stale COMPLETED
jobs. -/
theorem stale_completed_pruned_only_by_search_stage
    (env : Env) (refdate : String) (s : QState) (j : Job)
    (hre : ReachState s) (hj : j ∈ s.store)
    (hstatus : j.status = JobStatus.completed) :
    (j.added ≠ refdate →
      ∀ x ∈ (perform_searches env refdate s).store, x.job_id ≠ j.job_id) ∧
    (j.added = refdate → j ∈ (perform_searches env refdate s).store) := by
  have hnd1 : ((pruneCompleted refdate s.store).map Job.job_id).Nodup :=
    ((pruneCompleted_sublist refdate s.store).map Job.job_id).nodup hre.2
  have hb1 : ∀ x ∈ pruneCompleted refdate s.store, x.job_id < s.nextId :=
    fun x hx => hre.1 x ((pruneCompleted_sublist refdate s.store).subset hx)
  have hnd2 := @promoteWaiting_nodup env _ hnd1
  have hb2 := @promoteWaiting_bound env _ _ hb1
  have hre2 : ReachState
      { store := promoteWaiting env (pruneCompleted refdate s.store),
        nextId := s.nextId } := ⟨hb2, hnd2⟩
  have hre3 : ReachState (create_new_search_jobs env
      { store := promoteWaiting env (pruneCompleted refdate s.store),
        nextId := s.nextId }) :=
    foldl_processCandidate_reach env env.candidates _ hre2
  constructor
  · intro hadd
    have hA1 := pruneCompleted_kills hj hstatus hadd
    have hA2 := @promoteWaiting_absence env _ _ hA1
    have hfold := foldl_processCandidate_absence env env.candidates
      { store := promoteWaiting env (pruneCompleted refdate s.store),
        nextId := s.nextId } j.job_id hA2 (hre.1 j hj)
    exact foldl_searchStep_absence env _ _ j.job_id
      (fun w hw => hfold.1 w (mem_byStatus.mp hw).1) hfold.1 hfold.2
  · intro hadd
    have hR1 := pruneCompleted_retains hre.2 hj hstatus hadd
    have hR2 := @promoteWaiting_mem env _ _ hnd1 hR1 hstatus
    have hR3 := foldl_processCandidate_mem env env.candidates
      { store := promoteWaiting env (pruneCompleted refdate s.store),
        nextId := s.nextId } j hR2 (hre.1 j hj)
    apply foldl_searchStep_mem env _ _ j ?_ hR3.1 hR3.2
    intro w hw h
    have hwmem := mem_byStatus.mp hw
    have hwj : w = j := List.inj_on_of_nodup_map hre3.2 hwmem.1 hR3.1 h
    rw [hwj, hstatus] at hwmem
    exact absurd hwmem.2 (by decide)

theorem stale_completed_pruned_only_by_search_stage_witness :
    let jStale : Job := { job_id := 0, status := JobStatus.completed,
                          added := "2026-10-11" }
    let env : Env := { today := "2026-10-12", search := fun _ => [],
                       ucfn := fun _ _ _ => none, candidates := [] }
    let s : QState := { store := [jStale], nextId := 1 }
    ReachState s ∧ jStale ∈ s.store ∧
    jStale.status = JobStatus.completed ∧ jStale.added ≠ "2026-10-12" ∧
    ∀ x ∈ (perform_searches env "2026-10-12" s).store,
      x.job_id ≠ jStale.job_id :=
  ⟨⟨by simp, by simp⟩, by simp, rfl, by decide,
    (stale_completed_pruned_only_by_search_stage _ _ _ _
        ⟨by simp, by simp⟩ (by simp) rfl).1 (by decide)⟩

/-- C2 counterexample: a store whose only job is COMPLETED and holds the
`(keyword, query)` pair makes `is_existing_job` return true, although no
non-completed job holds the pair — the dedup check scans all statuses, not
only non-completed jobs. -/
theorem is_existing_job_counts_completed :
    let jc : Job := { job_id := 0, status := JobStatus.completed,
                      added := "2026-10-11", keyword := some "show",
                      query := some "show s01e02" }
    is_existing_job [jc] "show" "show s01e02" = true ∧
    ¬ ∃ x ∈ ([jc] : Store), x.status ≠ JobStatus.completed ∧
        x.keyword = some "show" ∧ x.query = some "show s01e02" := by
  exact ⟨by decide, by decide⟩

/-- C2 amended: `is_existing_job` returns true iff some job of any status in
the store holds the `(keyword, query)` pair; consequently re-running discovery
with unchanged candidates creates no new job for a pair that already has one:
`create_new_search_jobs` is idempotent on any reachable state. -/
theorem dedup_any_status_and_idempotent_discovery :
    (∀ (st : Store) (k q : String),
      is_existing_job st k q = true ↔
        ∃ x ∈ st, x.keyword = some k ∧ x.query = some q) ∧
    (∀ (env : Env) (s : QState), ReachState s →
      create_new_search_jobs env (create_new_search_jobs env s)
        = create_new_search_jobs env s) := by
  refine ⟨is_existing_job_iff, ?_⟩
  intro env s hre
  unfold create_new_search_jobs
  apply foldl_processCandidate_skip
  exact foldl_processCandidate_establishes env env.candidates s hre

theorem dedup_any_status_and_idempotent_discovery_witness :
    let env : Env := { today := "2026-10-12", search := fun _ => [],
                       ucfn := fun _ _ _ => none,
                       candidates := [{ keyword := "show",
                                        search_string := "show s01e03",
                                        is_download_only := false,
                                        plex_title_sub := "Show - s01e03" }] }
    let s : QState := { store := [], nextId := 0 }
    ReachState s ∧
    create_new_search_jobs env (create_new_search_jobs env s)
      = create_new_search_jobs env s :=
  ⟨⟨by simp, by simp⟩,
    (dedup_any_status_and_idempotent_discovery).2 _ _ ⟨by simp, by simp⟩⟩

end InfieldFly
